import Mathlib

/-!
# livephp: live-reload development server

A shallow embedding of `main.go` and the properties its specification states.

Go byte slices and Go strings are both byte sequences; they are modelled as lists of
natural numbers (`Bytes`).  A Go `int` index that may be `-1` is an `Option Nat`.
A run-time fault (a slice expression out of range, a `WriteHeader` with an invalid code) is
`none` in an `Option` result and the call `Call.fault` in a handler.

The functions of the Go standard library the program calls are modelled from their
documented behaviour, with their ASCII paths written out.  What they do with input that is
not ASCII depends on the Unicode tables of the language run time, which are not part of the
program; that part is the parameter `Unicode`.
-/

namespace LivePHP

/-- A Go byte slice or string. -/
abbrev Bytes := List Nat

/-- The bytes of an ASCII string literal. -/
def ascii (s : String) : Bytes := s.toList.map Char.toNat

/-! ## Package `unicode/utf8` -/

/-- The constant `utf8.RuneError`, U+FFFD. -/
def runeError : Nat := 0xFFFD

/-- The constant `utf8.RuneSelf`: bytes below it are single-byte runes. -/
def runeSelf : Nat := 0x80

/-- Whether `b` is a UTF-8 continuation byte (`locb ≤ b ≤ hicb`). -/
def isCont (b : Nat) : Bool := 0x80 ≤ b && b ≤ 0xBF

/-- The table `first` together with `acceptRanges` of package `utf8`: for a lead byte, the
length of the sequence and the range accepted for the second byte; `none` for a byte that
cannot start a multi-byte sequence. -/
def leadInfo (p0 : Nat) : Option (Nat × Nat × Nat) :=
  if 0xC2 ≤ p0 ∧ p0 ≤ 0xDF then some (2, 0x80, 0xBF)
  else if p0 = 0xE0 then some (3, 0xA0, 0xBF)
  else if 0xE1 ≤ p0 ∧ p0 ≤ 0xEC then some (3, 0x80, 0xBF)
  else if p0 = 0xED then some (3, 0x80, 0x9F)
  else if 0xEE ≤ p0 ∧ p0 ≤ 0xEF then some (3, 0x80, 0xBF)
  else if p0 = 0xF0 then some (4, 0x90, 0xBF)
  else if 0xF1 ≤ p0 ∧ p0 ≤ 0xF3 then some (4, 0x80, 0xBF)
  else if p0 = 0xF4 then some (4, 0x80, 0x8F)
  else none

/-- The function `utf8.DecodeRune`: the first rune of `p` and its width in bytes.  An invalid
encoding yields `(RuneError, 1)`, the empty input `(RuneError, 0)`. -/
def decodeRune : Bytes → Nat × Nat
  | [] => (runeError, 0)
  | p0 :: rest =>
    if p0 < runeSelf then (p0, 1)
    else
      match leadInfo p0 with
      | none => (runeError, 1)
      | some (sz, lo, hi) =>
        match rest with
        | [] => (runeError, 1)
        | b1 :: rest1 =>
          if b1 < lo ∨ hi < b1 then (runeError, 1)
          else if sz ≤ 2 then ((p0 % 0x20) * 0x40 + b1 % 0x40, 2)
          else
            match rest1 with
            | [] => (runeError, 1)
            | b2 :: rest2 =>
              if !isCont b2 then (runeError, 1)
              else if sz ≤ 3 then ((p0 % 0x10) * 0x1000 + (b1 % 0x40) * 0x40 + b2 % 0x40, 3)
              else
                match rest2 with
                | [] => (runeError, 1)
                | b3 :: _ =>
                  if !isCont b3 then (runeError, 1)
                  else ((p0 % 0x08) * 0x40000 + (b1 % 0x40) * 0x1000
                          + (b2 % 0x40) * 0x40 + b3 % 0x40, 4)

/-- The three-byte encoding used by `utf8.AppendRune`. -/
def encode3 (r : Nat) : Bytes :=
  [0xE0 + r / 0x1000 % 0x10, 0x80 + r / 0x40 % 0x40, 0x80 + r % 0x40]

/-- The function `utf8.AppendRune`, as the bytes it appends for the rune `r`: surrogates and
values above `MaxRune` are written as `RuneError`. -/
def encodeRune (r : Nat) : Bytes :=
  if r ≤ 0x7F then [r]
  else if r ≤ 0x7FF then [0xC0 + r / 0x40 % 0x20, 0x80 + r % 0x40]
  else if 0x10FFFF < r ∨ (0xD800 ≤ r ∧ r ≤ 0xDFFF) then encode3 runeError
  else if r ≤ 0xFFFF then encode3 r
  else [0xF0 + r / 0x40000 % 0x08, 0x80 + r / 0x1000 % 0x40, 0x80 + r / 0x40 % 0x40,
        0x80 + r % 0x40]

/-! ## Package `unicode` -/

/-- The Unicode-dependent parts of the standard library, which belong to the language run
time and not to this program.  Each field is only consulted for input that is not ASCII. -/
structure Unicode where
  /-- The mapping `unicode.To(LowerCase, r)` for a rune above `MaxASCII`. -/
  lower : Nat → Nat
  /-- The call `bytes.TrimFunc(s, unicode.IsSpace)`. -/
  trimFunc : Bytes → Bytes
  /-- The call `strings.FieldsFunc(s, unicode.IsSpace)`. -/
  fieldsFunc : Bytes → List Bytes
  /-- The rune-by-rune loop of `strings.EqualFold`, entered at the first non-ASCII byte. -/
  foldRunes : Bytes → Bytes → Bool

/-- The ASCII branch of `unicode.ToLower`: `A..Z` are moved to `a..z`. -/
def asciiLower (c : Nat) : Nat :=
  if 0x41 ≤ c ∧ c ≤ 0x5A then c + 0x20 else c

/-- The function `unicode.ToLower`. -/
def unicodeToLower (U : Unicode) (r : Nat) : Nat :=
  if r ≤ 0x7F then asciiLower r else U.lower r

/-! ## Package `bytes` -/

/-- The loop of `bytes.Map(mapping, s)`: every rune of `s` is decoded, mapped and re-encoded.
`skip` counts the bytes of the current rune that are still to be passed over. -/
def bytesMapLoop (mapping : Nat → Nat) : Nat → Bytes → Bytes
  | _, [] => []
  | skip + 1, _ :: rest => bytesMapLoop mapping skip rest
  | 0, c :: rest =>
    if c < runeSelf then encodeRune (mapping c) ++ bytesMapLoop mapping 0 rest
    else
      encodeRune (mapping (decodeRune (c :: rest)).1)
        ++ bytesMapLoop mapping ((decodeRune (c :: rest)).2 - 1) rest

/-- The function `bytes.Map`. -/
def bytesMap (mapping : Nat → Nat) (s : Bytes) : Bytes := bytesMapLoop mapping 0 s

/-- The function `bytes.ToLower` (and `strings.ToLower`, which computes the same bytes):
ASCII-only input is lowered byte by byte, any other input goes through
`Map(unicode.ToLower, s)`. -/
def toLower (U : Unicode) (s : Bytes) : Bytes :=
  if s.all (fun c => decide (c < runeSelf)) then s.map asciiLower
  else bytesMap (unicodeToLower U) s

/-- Scan of `bytes.LastIndex`: `i` is the index of the head of the remaining input and `acc`
the last match seen so far. -/
def lastIndexFrom (sep : Bytes) : Bytes → Nat → Option Nat → Option Nat
  | [], i, acc => if sep = [] then some i else acc
  | c :: rest, i, acc =>
    lastIndexFrom sep rest (i + 1) (if sep.isPrefixOf (c :: rest) then some i else acc)

/-- The function `bytes.LastIndex`: the index of the last occurrence of `sep` in `s`, `none`
for Go's `-1`. -/
def lastIndex (s sep : Bytes) : Option Nat := lastIndexFrom sep s 0 none

/-! ## The injected snippet -/

/-- The text of the constant `liveReloadSnippet`. -/
def liveReloadSnippetText : String :=
  "\n" ++
  "<script>\n" ++
  "(function() \x7b\n" ++
  "  try \x7b\n" ++
  "    var es = new EventSource(\x27/events\x27);\n" ++
  "    es.onmessage = function(event) \x7b\n" ++
  "      if (event.data === \x27reload\x27) \x7b\n" ++
  "        console.log(\x27[livereload] Change detected, reloading...\x27);\n" ++
  "        window.location.reload();\n" ++
  "      \x7d\n" ++
  "    \x7d;\n" ++
  "  \x7d catch (e) \x7b\n" ++
  "    console.warn(\x27[livereload] SSE not available\x27, e);\n" ++
  "  \x7d\n" ++
  "\x7d)();\n" ++
  "</script>\n"

/-- The constant `liveReloadSnippet` as bytes. -/
def liveReloadSnippet : Bytes := ascii liveReloadSnippetText

/-- The closing body tag `</body>` searched by `injectLiveReload`. -/
def closingBody : Bytes := [0x3C, 0x2F, 0x62, 0x6F, 0x64, 0x79, 0x3E]

/-- The function `injectLiveReload`.  The index is searched in the lowered copy and then used
to slice `html` itself; slicing beyond `len(html)` is a run-time fault, `none`. -/
def injectLiveReload (U : Unicode) (html : Bytes) : Option Bytes :=
  match lastIndex (toLower U html) closingBody with
  | none => some (html ++ liveReloadSnippet)
  | some idx =>
    if idx ≤ html.length then some (html.take idx ++ liveReloadSnippet ++ html.drop idx)
    else none

/-- The reference behaviour of the injector, in the words of the specification: a closing
body tag in any letter case starts at the head of `l`. -/
def tagAt (l : Bytes) : Bool := closingBody.isPrefixOf ((l.take 7).map asciiLower)

/-- Scan for the start `P` of the last closing body tag of the content itself. -/
def lastTagFrom : Bytes → Nat → Option Nat → Option Nat
  | [], _, acc => acc
  | c :: rest, i, acc => lastTagFrom rest (i + 1) (if tagAt (c :: rest) then some i else acc)

/-- The reference result of the injector: the snippet immediately before the last closing
body tag, or at the end when there is none. -/
def injectSpec (html : Bytes) : Bytes :=
  match lastTagFrom html 0 none with
  | none => html ++ liveReloadSnippet
  | some p => html.take p ++ liveReloadSnippet ++ html.drop p

/-! ## More of packages `bytes`, `strings` and `strconv` -/

/-- The table `asciiSpace` of packages `bytes` and `strings`. -/
def isAsciiSpace (c : Nat) : Bool :=
  c = 0x09 || c = 0x0A || c = 0x0B || c = 0x0C || c = 0x0D || c = 0x20

/-- The second loop of `bytes.TrimSpace`, on the reversed remainder: trailing ASCII space is
dropped; a non-ASCII byte hands the remainder to `TrimFunc`. -/
def trimRightRev (U : Unicode) : Bytes → Bytes
  | [] => []
  | c :: rest =>
    if runeSelf ≤ c then U.trimFunc (c :: rest).reverse
    else if isAsciiSpace c then trimRightRev U rest
    else (c :: rest).reverse

/-- The function `bytes.TrimSpace`: leading ASCII space is dropped, then trailing; a non-ASCII
byte met on the way hands the remainder to `TrimFunc(·, unicode.IsSpace)`. -/
def trimSpace (U : Unicode) : Bytes → Bytes
  | [] => []
  | c :: rest =>
    if runeSelf ≤ c then U.trimFunc (c :: rest)
    else if isAsciiSpace c then trimSpace U rest
    else trimRightRev U (c :: rest).reverse

/-- The ASCII path of `strings.Fields`: maximal runs of bytes that are not ASCII space.  `cur`
is the field being collected. -/
def asciiFields : Bytes → Bytes → List Bytes
  | [], cur => if cur = [] then [] else [cur]
  | c :: rest, cur =>
    if isAsciiSpace c then
      (if cur = [] then asciiFields rest [] else cur :: asciiFields rest [])
    else asciiFields rest (cur ++ [c])

/-- The function `strings.Fields`. -/
def fields (U : Unicode) (s : Bytes) : List Bytes :=
  if s.all (fun c => decide (c < runeSelf)) then asciiFields s [] else U.fieldsFunc s

/-- The function `strings.EqualFold`: the ASCII loop compares byte by byte up to letter case;
the first non-ASCII byte on either side hands both remainders to the rune loop. -/
def equalFold (U : Unicode) : Bytes → Bytes → Bool
  | [], [] => true
  | [], _ :: _ => false
  | _ :: _, [] => false
  | sr :: s, tr :: t =>
    if runeSelf ≤ sr ∨ runeSelf ≤ tr then U.foldRunes (sr :: s) (tr :: t)
    else if tr = sr then equalFold U s t
    else if 0x41 ≤ min sr tr ∧ min sr tr ≤ 0x5A ∧ max sr tr = min sr tr + 0x20 then
      equalFold U s t
    else false

/-- The digit loop of `strconv.Atoi`: `none` for a byte that is not a decimal digit. -/
def parseDigits : Bytes → Nat → Option Nat
  | [], n => some n
  | c :: rest, n => if 0x30 ≤ c ∧ c ≤ 0x39 then parseDigits rest (n * 10 + (c - 0x30)) else none

/-- The function `strconv.Atoi` for a 64-bit `int`: an optional sign, then one or more decimal
digits, with a value in the range of `int`; `none` when Go returns an error. -/
def atoi (s : Bytes) : Option Int :=
  let neg := s.head? = some 0x2D
  let digits := if s.head? = some 0x2D ∨ s.head? = some 0x2B then s.tail else s
  if digits = [] then none
  else
    match parseDigits digits 0 with
    | none => none
    | some n =>
      if neg then (if n ≤ 2 ^ 63 then some (-(n : Int)) else none)
      else (if n < 2 ^ 63 then some (n : Int) else none)

/-- The function `strings.Contains`. -/
def contains : Bytes → Bytes → Bool
  | [], sub => sub.isPrefixOf []
  | c :: rest, sub => sub.isPrefixOf (c :: rest) || contains rest sub

/-- The function `bytes.IndexByte`. -/
def indexByte : Bytes → Nat → Option Nat
  | [], _ => none
  | c :: rest, b => if c = b then some 0 else (indexByte rest b).map (· + 1)

/-- The cut of `s` at the first occurrence of `sep`: what precedes it and what follows it. -/
def cutFirst (sep : Bytes) : Bytes → Option (Bytes × Bytes)
  | [] => none
  | c :: rest =>
    if sep.isPrefixOf (c :: rest) then some ([], (c :: rest).drop sep.length)
    else (cutFirst sep rest).map (fun p => (c :: p.1, p.2))

/-- The call `bytes.SplitN(s, sep, 2)` for a non-empty `sep`. -/
def splitN2 (s sep : Bytes) : List Bytes :=
  match cutFirst sep s with
  | some (a, b) => [a, b]
  | none => [s]

/-- The loop of `bytes.Split(s, sep)` for a non-empty `sep`; `skip` counts the bytes of the
separator just found that are still to be passed over. -/
def splitLoop (sep : Bytes) : Nat → Bytes → List Bytes
  | _, [] => [[]]
  | skip + 1, _ :: rest => splitLoop sep skip rest
  | 0, c :: rest =>
    if sep.isPrefixOf (c :: rest) then [] :: splitLoop sep (sep.length - 1) rest
    else
      match splitLoop sep 0 rest with
      | [] => [[c]]
      | piece :: more => (c :: piece) :: more

/-- The function `bytes.Split` for a non-empty `sep`. -/
def split (s sep : Bytes) : List Bytes := splitLoop sep 0 s

/-! ## The response writer

`main` serves the handlers with `http.ListenAndServe`, so their `http.ResponseWriter` is the
one of package `net/http` (Go 1.19 and later):

* `WriteHeader(code)` is ignored once the header of the response is written; before that, a
  code outside 100..999 is a run-time fault (a panic) that ends the handler, and no response
  is sent; an informational code, 1xx other than 101, is sent at once and leaves the header
  of the response unwritten; any other code is written as the status of the response,
  together with the headers set so far;
* `Write(data)` first writes the header with status 200 when it is still unwritten;
* what `Header()` is given after the header is written does not reach the response.

A handler is the list of the calls it makes, in order; the functions `statusOf`,
`sentHeaders` and `writtenBody` read the response off that list.
-/

/-- A call the handler makes on its `http.ResponseWriter`, or the end of the handler by a
run-time fault. -/
inductive Call where
  /-- The call `w.WriteHeader(code)`. -/
  | writeHeader (code : Int)
  /-- The call `w.Header().Add(key, val)`. -/
  | headerAdd (key val : Bytes)
  /-- The call `w.Header().Set(key, val)`. -/
  | headerSet (key val : Bytes)
  /-- The call `w.Write(data)`. -/
  | write (data : Bytes)
  /-- The file server of package `net/http` answers for the file `name`. -/
  | serveFile (name : Bytes)
  /-- The handler ends in a run-time fault. -/
  | fault
  deriving DecidableEq, Repr

/-- The check `checkWriteHeaderCode` of package `net/http`: a status code has three
digits. -/
def validCode (code : Int) : Bool := decide (100 ≤ code ∧ code ≤ 999)

/-- An informational status code, 1xx other than 101: `WriteHeader` sends it at once, and the
header of the response is still to be written. -/
def isInformational (code : Int) : Bool := decide (100 ≤ code ∧ code ≤ 199 ∧ code ≠ 101)

/-- Whether a call writes the header of the response when it is still unwritten: a
`WriteHeader` with a valid code that is not informational, a `Write`, or the file server. -/
def Call.writesHeader : Call → Bool
  | Call.writeHeader code => validCode code && !isInformational code
  | Call.write _ => true
  | Call.serveFile _ => true
  | _ => false

/-- Whether the header of the response is written after the calls: the field `wroteHeader`
of the response. -/
def wroteHeader (calls : List Call) : Bool := calls.any Call.writesHeader

/-- Whether a call is the end of the handler by a run-time fault. -/
def Call.isFault : Call → Bool
  | Call.fault => true
  | _ => false

/-- Whether the handler has ended in a run-time fault. -/
def faulted (calls : List Call) : Bool := calls.any Call.isFault

/-- The call `w.WriteHeader(code)` made after the calls `before`: when the header is still
unwritten and the code is outside 100..999, the call faults and the handler ends there. -/
def callWriteHeader (before : List Call) (code : Int) : List Call :=
  if wroteHeader before || validCode code then [Call.writeHeader code]
  else [Call.writeHeader code, Call.fault]

/-- The status the calls write, reading from the first call: the code of the first
`WriteHeader` that is not informational, or 200 when a `Write` comes first.  `none` when that
`WriteHeader` faults, when the handler has neither, or when it leaves the answer to the file
server of the library. -/
def firstStatus : List Call → Option Int
  | [] => none
  | Call.writeHeader code :: rest =>
    if isInformational code then firstStatus rest
    else if validCode code then some code
    else none
  | Call.write _ :: _ => some 200
  | Call.headerAdd _ _ :: rest => firstStatus rest
  | Call.headerSet _ _ :: rest => firstStatus rest
  | Call.serveFile _ :: _ => none
  | Call.fault :: _ => none

/-- The HTTP status of the response the calls produce: the code of the first `WriteHeader`
that is not informational, or 200 when the first `Write` comes without one.  `none` when the
handler ends in a fault, so that no response is sent, when it has neither call, or when it
leaves the answer to the file server of the library. -/
def statusOf (calls : List Call) : Option Int :=
  if faulted calls then none else firstStatus calls

/-- The headers of the handler at the moment the header of the response is written, reading
from the first call, `hdr` being the headers set before: `Add` appends, `Set` replaces the
values of the name, and nothing after the header is written counts. -/
def sentFrom : List (Bytes × Bytes) → List Call → List (Bytes × Bytes)
  | hdr, [] => hdr
  | hdr, Call.headerAdd key val :: rest => sentFrom (hdr ++ [(key, val)]) rest
  | hdr, Call.headerSet key val :: rest =>
    sentFrom (hdr.filter (fun h => decide (h.1 ≠ key)) ++ [(key, val)]) rest
  | hdr, Call.writeHeader code :: rest =>
    if isInformational code then sentFrom hdr rest else hdr
  | hdr, Call.write _ :: _ => hdr
  | hdr, Call.serveFile _ :: _ => hdr
  | hdr, Call.fault :: _ => hdr

/-- The headers the response is written from: those the handler has set when the header of
the response is written, in the order they were set.  What is set later is not sent.  (The
library writes those with a valid field name, sorted by name, the names in canonical letter
case, and adds its own, such as `Date`, and a `Content-Type` it guesses from the body when
the handler has set none in time.)  `none` when the handler ends in a fault. -/
def sentHeaders (calls : List Call) : Option (List (Bytes × Bytes)) :=
  if faulted calls then none else some (sentFrom [] calls)

/-- The header a call hands to `w.Header().Add`, if it is such a call. -/
def Call.added : Call → Option (Bytes × Bytes)
  | Call.headerAdd key val => some (key, val)
  | _ => none

/-- Whether a call is one of the header loop: `WriteHeader` or `Header().Add`. -/
def Call.isHeaderCall : Call → Bool
  | Call.writeHeader _ => true
  | Call.headerAdd _ _ => true
  | _ => false

/-- The headers handed to `w.Header().Add`, in order, whether or not they are sent. -/
def addedHeaders (calls : List Call) : List (Bytes × Bytes) := calls.filterMap Call.added

/-- The body handed to `w.Write`; `none` when the handler ends in a fault.  Whether the
library sends it on (it does not for a `HEAD` request or a status without body, such as 204
and 304) is not part of the model. -/
def writtenBody : List Call → Option Bytes
  | [] => some []
  | Call.write data :: rest => (writtenBody rest).map (data ++ ·)
  | Call.fault :: _ => none
  | _ :: rest => writtenBody rest

/-- The function `http.Error(w, msg, code)`: the headers of a plain-text message, the status,
then the message and a line feed. -/
def httpError (msg : Bytes) (code : Int) : List Call :=
  [Call.headerSet (ascii "Content-Type") (ascii "text/plain; charset=utf-8"),
   Call.headerSet (ascii "X-Content-Type-Options") (ascii "nosniff"),
   Call.writeHeader code,
   Call.write (msg ++ [0x0A])]

/-- The function `http.NotFound(w, r)`. -/
def httpNotFound : List Call := httpError (ascii "404 page not found") 404

/-! ## `servePHP`: the CGI output -/

/-- The separator between header block and body, CR LF CR LF. -/
def crlfcrlf : Bytes := [0x0D, 0x0A, 0x0D, 0x0A]

/-- The line separator of the header block, CR LF. -/
def crlf : Bytes := [0x0D, 0x0A]

/-- The header name `Status`. -/
def statusName : Bytes := ascii "Status"

/-- The header name `Content-Type`. -/
def contentTypeName : Bytes := ascii "Content-Type"

/-- The content type `text/html`. -/
def textHtml : Bytes := ascii "text/html"

/-- The state of the header loop of `servePHP`: the tracked content type and the calls made
on the response writer so far.  Once the calls end in a fault the handler has ended. -/
structure HeaderLoop where
  /-- The variable `contentType`. -/
  contentType : Bytes
  /-- The calls made so far. -/
  calls : List Call
  deriving DecidableEq, Repr

/-- One iteration of the header loop of `servePHP`.  Nothing runs after a fault; the call
`w.WriteHeader(code)` faults when the header is unwritten and the code is outside
100..999. -/
def headerStep (U : Unicode) (st : HeaderLoop) (line : Bytes) : HeaderLoop :=
  if faulted st.calls then st
  else if line.length = 0 then st
  else
    match indexByte line 0x3A with
    | none => st
    | some colon =>
      let key := trimSpace U (line.take colon)
      let val := trimSpace U (line.drop (colon + 1))
      if equalFold U key statusName then
        match fields U val with
        | [] => st
        | f :: _ =>
          match atoi f with
          | some code => { st with calls := st.calls ++ callWriteHeader st.calls code }
          | none => st
      else if equalFold U key contentTypeName then
        { contentType := val, calls := st.calls ++ [Call.headerAdd key val] }
      else
        { st with calls := st.calls ++ [Call.headerAdd key val] }

/-- The part of `servePHP` that follows a successful run of the interpreter: `out` is the
combined output of the process.  When the header loop has ended in a fault nothing
follows. -/
def servePHPOutput (U : Unicode) (out : Bytes) : List Call :=
  match splitN2 out crlfcrlf with
  | [headerBlock, body] =>
    let st := (split headerBlock crlf).foldl (headerStep U) ⟨textHtml, []⟩
    if faulted st.calls then st.calls
    else if contains (toLower U st.contentType) textHtml then
      match injectLiveReload U body with
      | some injected => st.calls ++ [Call.write injected]
      | none => st.calls ++ [Call.fault]
    else st.calls ++ [Call.write body]
  | _ => [Call.writeHeader 200, Call.write out]

/-! ## Package `path/filepath` (Unix) -/

/-- The path separator `/`. -/
def slash : Nat := 0x2F

/-- The path element `..`. -/
def dotdot : Bytes := [0x2E, 0x2E]

/-- One path element processed by `filepath.Clean`.  `st` holds the elements written so far,
last one first.  Empty elements and `.` are dropped; `..` removes the element before it when
there is one that is not itself `..`, is dropped at the root of a rooted path, and is kept
otherwise; any other element is written. -/
def cleanStep (rooted : Bool) (st : List Bytes) (e : Bytes) : List Bytes :=
  if e = [] ∨ e = [0x2E] then st
  else if e = dotdot then
    match st with
    | [] => if rooted then [] else [e]
    | top :: below => if top = dotdot then (if rooted then st else e :: st) else below
  else e :: st

/-- The function `filepath.Clean`: the shortest path equivalent to `p` by purely lexical
processing. -/
def clean (p : Bytes) : Bytes :=
  if p = [] then [0x2E]
  else
    let rooted := decide (p.head? = some slash)
    let body := [slash].intercalate ((p.splitOn slash).foldl (cleanStep rooted) []).reverse
    if rooted then slash :: body
    else if body = [] then [0x2E]
    else body

/-- The call `filepath.Join(a, b)`: the non-empty arguments joined by a separator, then
cleaned. -/
def join (a b : Bytes) : Bytes :=
  if a ≠ [] then clean (a ++ slash :: b)
  else if b ≠ [] then clean b
  else []

/-- The scan of `filepath.Ext` over the reversed path: `acc` is what has been passed. -/
def extRev : Bytes → Bytes → Bytes
  | [], _ => []
  | c :: rest, acc =>
    if c = slash then []
    else if c = 0x2E then c :: acc
    else extRev rest (c :: acc)

/-- The function `filepath.Ext`: the suffix of the last path element from its last dot. -/
def fileExt (p : Bytes) : Bytes := extRev p.reverse []

/-- The function `strings.HasPrefix`. -/
def hasPrefix (s pre : Bytes) : Bool := pre.isPrefixOf s

/-! ## The environment of a request -/

/-- The outcome of `os.Stat`. -/
inductive StatResult where
  /-- The file exists; `isDir` tells whether it is a directory. -/
  | ok (isDir : Bool)
  /-- An error for which `os.IsNotExist` holds. -/
  | notExist
  /-- Any other error. -/
  | otherError
  deriving DecidableEq, Repr

/-- The outcome of `os.ReadFile`. -/
inductive ReadResult where
  /-- The content of the file. -/
  | ok (data : Bytes)
  /-- The file does not exist. -/
  | notExist
  /-- Any other error. -/
  | otherError
  deriving DecidableEq, Repr

/-- The outcome of running `php-cgi` for a request. -/
inductive CGIResult where
  /-- The pipe to the standard input of the process could not be made. -/
  | pipeError
  /-- The process ended with an error; `out` is its combined output. -/
  | failed (out : Bytes)
  /-- The process ended normally with the combined output `out`. -/
  | ok (out : Bytes)
  deriving DecidableEq, Repr

/-- The request, as far as the handlers look at it. -/
structure Request where
  /-- The field `r.URL.Path`. -/
  urlPath : Bytes
  deriving DecidableEq, Repr

/-- The state of the world outside the handler: the file system and the interpreter. -/
structure World where
  /-- The answer of `os.Stat` for a path. -/
  stat : Bytes → StatResult
  /-- The answer of `os.ReadFile` for a path. -/
  readFile : Bytes → ReadResult
  /-- The run of `php-cgi` for a request and a script path. -/
  phpCGI : Request → Bytes → CGIResult

/-! ## The handlers -/

/-- The function `servePHP`. -/
def servePHP (U : Unicode) (W : World) (r : Request) (scriptPath : Bytes) : List Call :=
  match W.stat scriptPath with
  | StatResult.notExist => httpNotFound
  | StatResult.otherError => httpError (ascii "Error interno") 500
  | StatResult.ok _ =>
    match W.phpCGI r scriptPath with
    | CGIResult.pipeError => httpError (ascii "No se pudo ejecutar PHP") 500
    | CGIResult.failed _ => httpError (ascii "Error ejecutando PHP") 500
    | CGIResult.ok out => servePHPOutput U out

/-- The separators of `containsDotDot` in package `net/http`: slash and backslash. -/
def isSlashRune (c : Nat) : Bool := c = 0x2F || c = 0x5C

/-- The function `containsDotDot` of package `net/http`: some element of the URL path is
`..`. -/
def containsDotDot (v : Bytes) : Bool := (v.splitOnP isSlashRune).any (fun ent => ent == dotdot)

/-- The function `http.ServeFile(w, r, name)`.  As its documentation says, it refuses a
request whose URL path has a `..` element, with status 400; any other answer is made by the
file server of the library and stays outside this model. -/
def httpServeFile (r : Request) (name : Bytes) : List Call :=
  if containsDotDot r.urlPath then httpError (ascii "invalid URL path") 400
  else [Call.serveFile name]

/-- The function `serveStaticWithInject`. -/
def serveStaticWithInject (U : Unicode) (W : World) (fullPath : Bytes) (r : Request) :
    List Call :=
  let ext := toLower U (fileExt fullPath)
  if ext ≠ ascii ".html" ∧ ext ≠ ascii ".htm" then httpServeFile r fullPath
  else
    match W.readFile fullPath with
    | ReadResult.ok data =>
      match injectLiveReload U data with
      | some injected =>
        [Call.headerSet (ascii "Content-Type") (ascii "text/html; charset=utf-8"),
         Call.write injected]
      | none => [Call.fault]
    | _ => httpError (ascii "No se pudo leer el archivo") 500

/-- The default of `serveFileOrPHP` for the empty path and the path `/`: the index script
when `os.Stat` finds it, the index page otherwise. -/
def defaultPath (W : World) (root path : Bytes) : Bytes :=
  if path = [] ∨ path = [slash] then
    (match W.stat (join root (ascii "index.php")) with
     | StatResult.ok _ => ascii "/index.php"
     | _ => ascii "/index.html")
  else path

/-- The path resolution of `serveFileOrPHP`: the default for the empty and the root path,
lexical normalisation, join with the root and the prefix check.  `none` is the refusal
(`AccessDenied`). -/
def resolvePath (W : World) (root path : Bytes) : Option Bytes :=
  let cleanPath := clean (defaultPath W root path)
  let fullPath := join root cleanPath
  if !hasPrefix fullPath root then none else some fullPath

/-- The handler returned by `serveFileOrPHP(root)`. -/
def serveFileOrPHP (U : Unicode) (W : World) (root : Bytes) (r : Request) : List Call :=
  match resolvePath W root r.urlPath with
  | none => httpError (ascii "Acceso no permitido") 403
  | some fullPath =>
    let ext := toLower U (fileExt fullPath)
    if ext = ascii ".php" then servePHP U W r fullPath
    else serveStaticWithInject U W fullPath r

/-! ## The notification hub

The map `clients`, the channels made by `eventsHandler` and the progress of each handler
are explicit state.  Every step below is what one goroutine does while it holds `clientsMu`
(or, for `close`, one statement outside the lock), so a run of the server is a sequence of
steps. -/

/-- A channel made by `eventsHandler`, seen together with the handler that owns it. -/
structure Chan where
  /-- The capacity given to `make`. -/
  cap : Nat
  /-- The signals held in the buffer of the channel. -/
  pending : Nat
  /-- Whether `close(ch)` has run. -/
  closed : Bool
  /-- Whether the owner is blocked in its `select`, ready to receive. -/
  waiting : Bool
  /-- The signals the owner has received. -/
  received : Nat
  deriving DecidableEq, Repr

/-- How far the handler that owns a channel has got. -/
inductive Phase where
  /-- The channel has not been made yet. -/
  | idle
  /-- The handler has registered the channel and runs its loop. -/
  | serving
  /-- The deferred function has run `delete(clients, ch)` but not yet `close(ch)`. -/
  | removed
  /-- The deferred function has run `close(ch)`. -/
  | finished
  deriving DecidableEq, Repr

/-- The state of the hub. -/
structure Hub where
  /-- The identity of the next channel `make` returns. -/
  next : Nat
  /-- The channels, by identity. -/
  chan : Nat → Chan
  /-- The progress of the owner of each channel. -/
  phase : Nat → Phase
  /-- The keys of the map `clients`. -/
  clients : List Nat
  /-- The channels on which a send has been attempted, in order. -/
  attempts : List Nat
  /-- The channels on which a send has been attempted while closed: each is a run-time
  fault. -/
  sentOnClosed : List Nat
  /-- The channels a running `broadcastReload` has still to send to; `none` when no
  broadcast holds `clientsMu`. -/
  pass : Option (List Nat)

/-- The channel `make(chan struct{})` returns: no buffer. -/
def newChan : Chan := { cap := 0, pending := 0, closed := false, waiting := false, received := 0 }

/-- The hub at start: `clients` is empty. -/
def emptyHub : Hub :=
  { next := 0, chan := fun _ => newChan, phase := fun _ => Phase.idle, clients := [],
    attempts := [], sentOnClosed := [], pass := none }

/-- Lines 73 to 76 of `eventsHandler`: a new channel is made and registered. -/
def subscribe (h : Hub) : Hub :=
  { h with
    next := h.next + 1
    chan := Function.update h.chan h.next newChan
    phase := Function.update h.phase h.next Phase.serving
    clients := h.next :: h.clients }

/-- The handler of `ch` reaches the `select` of its loop: it takes a buffered signal if there
is one and blocks otherwise. -/
def awaitSignal (h : Hub) (ch : Nat) : Hub :=
  if h.phase ch = Phase.serving then
    let c := h.chan ch
    if 0 < c.pending then
      let c1 := { c with pending := c.pending - 1, received := c.received + 1 }
      { h with chan := Function.update h.chan ch c1 }
    else { h with chan := Function.update h.chan ch ({ c with waiting := true }) }
  else h

/-- The first half of the deferred function of `eventsHandler`: `delete(clients, ch)` under
the lock. -/
def unsubscribeDelete (h : Hub) (ch : Nat) : Hub :=
  if h.phase ch = Phase.serving then
    { h with
      chan := Function.update h.chan ch ({ h.chan ch with waiting := false })
      phase := Function.update h.phase ch Phase.removed
      clients := h.clients.filter (· ≠ ch) }
  else h

/-- The second half of the deferred function of `eventsHandler`: `close(ch)`. -/
def unsubscribeClose (h : Hub) (ch : Nat) : Hub :=
  if h.phase ch = Phase.removed then
    { h with
      chan := Function.update h.chan ch ({ h.chan ch with closed := true })
      phase := Function.update h.phase ch Phase.finished }
  else h

/-- The `select` of `broadcastReload` on one channel: a send that never blocks.  It succeeds
when the owner is waiting to receive or the buffer has room, and is given up otherwise; on a
closed channel it is a run-time fault. -/
def trySend (h : Hub) (ch : Nat) : Hub :=
  let c := h.chan ch
  let h := { h with attempts := h.attempts ++ [ch] }
  if c.closed then { h with sentOnClosed := h.sentOnClosed ++ [ch] }
  else if c.waiting then
    let c1 := { c with waiting := false, received := c.received + 1 }
    { h with chan := Function.update h.chan ch c1 }
  else if c.pending < c.cap then
    { h with chan := Function.update h.chan ch ({ c with pending := c.pending + 1 }) }
  else h

/-- The function `broadcastReload`: under the lock, one non-blocking send to every key of
`clients`. -/
def broadcastReload (h : Hub) : Hub := h.clients.foldl trySend h

/-- A step of the hub.  A run of `broadcastReload` is a sequence of steps, so that what the
other goroutines do without the lock can come between two sends. -/
inductive HubEvent where
  /-- A connection to `/events` registers its channel. -/
  | subscribe
  /-- The handler of a channel blocks in its `select`. -/
  | await (ch : Nat)
  /-- The handler of a channel removes it from `clients`. -/
  | unsubscribeDelete (ch : Nat)
  /-- The handler of a channel closes it. -/
  | unsubscribeClose (ch : Nat)
  /-- A call of `broadcastReload` takes the lock and starts to range over `clients`. -/
  | broadcastBegin
  /-- The running `broadcastReload` sends on its next channel, or, when none is left,
  returns and releases the lock. -/
  | broadcastNext
  deriving DecidableEq, Repr

/-- The effect of one step.  The steps that need `clientsMu` do not happen while a broadcast
holds it. -/
def hubStep (h : Hub) : HubEvent → Hub
  | HubEvent.subscribe => if h.pass = none then subscribe h else h
  | HubEvent.await ch => awaitSignal h ch
  | HubEvent.unsubscribeDelete ch => if h.pass = none then unsubscribeDelete h ch else h
  | HubEvent.unsubscribeClose ch => unsubscribeClose h ch
  | HubEvent.broadcastBegin => if h.pass = none then { h with pass := some h.clients } else h
  | HubEvent.broadcastNext =>
    match h.pass with
    | none => h
    | some [] => { h with pass := none }
    | some (ch :: rest) => { trySend h ch with pass := some rest }

/-- The state of the hub after a sequence of steps from the start. -/
def hubRun (evs : List HubEvent) : Hub := evs.foldl hubStep emptyHub

/-- Whether a step belongs to the registration of subscribers: a registration, or a
registered handler reaching its `select`. -/
def HubEvent.isSetup : HubEvent → Bool
  | HubEvent.subscribe => true
  | HubEvent.await _ => true
  | _ => false

/-! ## The file watcher -/

/-- The operation bit `fsnotify.Create`. -/
def opCreate : Nat := 1

/-- The operation bit `fsnotify.Write`. -/
def opWrite : Nat := 2

/-- The operation bit `fsnotify.Remove`. -/
def opRemove : Nat := 4

/-- The operation bit `fsnotify.Rename`. -/
def opRename : Nat := 8

/-- The operation bit `fsnotify.Chmod`. -/
def opChmod : Nat := 16

/-- A value of type `fsnotify.Event`. -/
structure FsEvent where
  /-- The field `Name`, the path the event is about. -/
  name : Bytes
  /-- The field `Op`, a set of operation bits. -/
  op : Nat
  deriving DecidableEq, Repr

/-- What the `select` of the watcher loop receives. -/
inductive WatcherInput where
  /-- An event from `watcher.Events`. -/
  | event (ev : FsEvent)
  /-- The channel `watcher.Events` is closed. -/
  | eventsClosed
  /-- An error from `watcher.Errors`. -/
  | error
  /-- The channel `watcher.Errors` is closed. -/
  | errorsClosed
  deriving DecidableEq, Repr

/-- What the watcher loop does besides logging. -/
inductive WatcherAction where
  /-- The call `addWatchRecursive(watcher, dir)`. -/
  | addWatchRecursive (dir : Bytes)
  /-- The call `broadcastReload()`. -/
  | broadcastReload
  deriving DecidableEq, Repr

/-- The function `hasWatchedExt`. -/
def hasWatchedExt (U : Unicode) (path : Bytes) : Bool :=
  let ext := toLower U (fileExt path)
  if ext = ascii ".php" ∨ ext = ascii ".html" ∨ ext = ascii ".css" ∨ ext = ascii ".js" then true
  else false

/-- The body of the `Events` case of the watcher loop, for one event. -/
def handleEvent (U : Unicode) (W : World) (ev : FsEvent) : List WatcherAction :=
  (if ev.op &&& opCreate ≠ 0 then
    (match W.stat ev.name with
     | StatResult.ok true => [WatcherAction.addWatchRecursive ev.name]
     | _ => [])
   else [])
  ++
  (if ev.op &&& (opWrite ||| opCreate ||| opRemove ||| opRename) ≠ 0 then
    (if hasWatchedExt U ev.name then [WatcherAction.broadcastReload] else [])
   else [])

/-- The loop of the goroutine started by `startWatcher`: it handles what it receives until
one of the two channels is closed. -/
def watcherLoop (U : Unicode) (W : World) : List WatcherInput → List WatcherAction
  | [] => []
  | WatcherInput.event ev :: rest => handleEvent U W ev ++ watcherLoop U W rest
  | WatcherInput.eventsClosed :: _ => []
  | WatcherInput.error :: rest => watcherLoop U W rest
  | WatcherInput.errorsClosed :: _ => []

/-- The number of calls of `broadcastReload` among the actions. -/
def broadcastCalls (acts : List WatcherAction) : Nat :=
  acts.count WatcherAction.broadcastReload

/-- Whether an event qualifies for a reload: its operation includes write, create, remove or
rename, and its path has a watched extension. -/
def qualifies (U : Unicode) (ev : FsEvent) : Bool :=
  (ev.op &&& opWrite ≠ 0 || ev.op &&& opCreate ≠ 0 || ev.op &&& opRemove ≠ 0
    || ev.op &&& opRename ≠ 0) && hasWatchedExt U ev.name

/-! ## Inputs and notions used in the statements -/

/-- A library without Unicode tables: non-ASCII runes have no case, nothing but ASCII space
is space.  It serves where a statement is instantiated at a concrete library. -/
def asciiOnly : Unicode :=
  { lower := fun r => r, trimFunc := fun s => s, fieldsFunc := fun s => [s],
    foldRunes := fun _ _ => false }

/-- The byte `0xE9` (a Latin-1 `é`) followed by `</body>`. -/
def latin1Page : Bytes := [0xE9, 0x3C, 0x2F, 0x62, 0x6F, 0x64, 0x79, 0x3E]

/-- Four bytes `0xE9` followed by `</body>`. -/
def latin1Page4 : Bytes := [0xE9, 0xE9, 0xE9, 0xE9, 0x3C, 0x2F, 0x62, 0x6F, 0x64, 0x79, 0x3E]

/-- A line of the header block read as a header: the name before the first colon and the
value after it, both trimmed.  A line without a colon is no header. -/
def parseHeader (U : Unicode) (line : Bytes) : Option (Bytes × Bytes) :=
  match indexByte line 0x3A with
  | none => none
  | some colon => some (trimSpace U (line.take colon), trimSpace U (line.drop (colon + 1)))

/-- The headers of a header block, in order. -/
def cgiHeaders (U : Unicode) (headerBlock : Bytes) : List (Bytes × Bytes) :=
  (split headerBlock crlf).filterMap (parseHeader U)

/-- Whether a header is named `Status`, letter case aside. -/
def isStatus (U : Unicode) (hdr : Bytes × Bytes) : Bool := equalFold U hdr.1 statusName

/-- Whether a header is named `Content-Type`, letter case aside. -/
def isContentType (U : Unicode) (hdr : Bytes × Bytes) : Bool :=
  equalFold U hdr.1 contentTypeName

/-- The integer value of the first whitespace-delimited token of a header value; `none`
when the value is empty or the token is not an integer. -/
def statusCode (U : Unicode) (val : Bytes) : Option Int :=
  match fields U val with
  | [] => none
  | f :: _ => atoi f

/-- The status the headers ask for: the code of the first `Status` header that carries one,
and 200 when there is none. -/
def specStatus (U : Unicode) (hdrs : List (Bytes × Bytes)) : Int :=
  (((hdrs.filter (isStatus U)).filterMap (fun hdr => statusCode U hdr.2)).head?).getD 200

/-- Every code that a `Status` header among `hdrs` carries satisfies `ok`. -/
def statusCodesAll (ok : Int → Bool) (U : Unicode) (hdrs : List (Bytes × Bytes)) : Bool :=
  hdrs.all (fun hdr => !isStatus U hdr || (statusCode U hdr.2).all ok)

/-- A status code that `WriteHeader` writes as the status of the response: 101 or one of
200..999. -/
def finalCode (code : Int) : Bool := validCode code && !isInformational code

/-- No status code at all. -/
def noCode (_ : Int) : Bool := false

/-- The call the header loop makes for a header, when no `WriteHeader` faults: none for a
`Status` header that carries no code. -/
def headerCall (U : Unicode) (hdr : Bytes × Bytes) : Option Call :=
  if isStatus U hdr then (statusCode U hdr.2).map Call.writeHeader
  else some (Call.headerAdd hdr.1 hdr.2)

/-- The final content type of the headers: the value of the last `Content-Type` header, and
`text/html` when there is none. -/
def finalContentType (U : Unicode) (hdrs : List (Bytes × Bytes)) : Bytes :=
  (((hdrs.filter (isContentType U)).getLast?).map (fun hdr => hdr.2)).getD textHtml

/-- The CGI output of the specification's example. -/
def exampleOutput : Bytes :=
  ascii "Status: 201 Created\r\nContent-Type: application/json\r\n\r\n\x7b\"ok\":true\x7d"

/-- The header block of the example. -/
def exampleHeaderBlock : Bytes := ascii "Status: 201 Created\r\nContent-Type: application/json"

/-- The body of the example. -/
def exampleBody : Bytes := ascii "\x7b\"ok\":true\x7d"

/-- The output of the example with its two headers in the other order. -/
def reorderedOutput : Bytes :=
  ascii "Content-Type: application/json\r\nStatus: 201 Created\r\n\r\n\x7b\"ok\":true\x7d"

/-- A CGI output whose `Status` header carries the code 99, with a plain-text body. -/
def badStatusOutput : Bytes := ascii "Status: 99\r\nContent-Type: text/plain\r\n\r\nx"

/-- The header block of `badStatusOutput`. -/
def badStatusHeaderBlock : Bytes := ascii "Status: 99\r\nContent-Type: text/plain"

/-- A CGI output without `Status` header. -/
def plainOutput : Bytes := ascii "X-Powered-By: PHP/8.3\r\nContent-Type: text/plain\r\n\r\nhello"

/-- The header block of `plainOutput`. -/
def plainHeaderBlock : Bytes := ascii "X-Powered-By: PHP/8.3\r\nContent-Type: text/plain"

/-- A CGI output with an HTML page. -/
def htmlOutput : Bytes :=
  ascii "Status: 200 OK\r\nContent-Type: text/html; charset=UTF-8\r\n\r\n<body>hi</body>"

/-- The header block of `htmlOutput`. -/
def htmlHeaderBlock : Bytes := ascii "Status: 200 OK\r\nContent-Type: text/html; charset=UTF-8"

/-- A world without files, in which the interpreter cannot be started. -/
def emptyWorld : World :=
  { stat := fun _ => StatResult.notExist, readFile := fun _ => ReadResult.notExist,
    phpCGI := fun _ _ => CGIResult.pipeError }

/-- The served root of the examples, `/srv/www`. -/
def exampleRoot : Bytes := ascii "/srv/www"

/-- The invariant of the hub: a registered channel belongs to a handler that is serving, a
closed channel to a handler that has finished, no send has met a closed channel, the
channels not yet made are idle, and a running broadcast has only registered channels left to
send to. -/
def HubInv (h : Hub) : Prop :=
  (∀ ch ∈ h.clients, h.phase ch = Phase.serving)
    ∧ (∀ ch, (h.chan ch).closed = true → h.phase ch = Phase.finished)
    ∧ h.sentOnClosed = []
    ∧ (∀ ch, h.next ≤ ch → h.phase ch = Phase.idle)
    ∧ (∀ l, h.pass = some l → ∀ ch ∈ l, ch ∈ h.clients)

/-- The invariant of the registration phase: the registered channels are distinct and have
been made, and every channel is as `make` left it, open, without buffer, nothing received. -/
def SetupInv (h : Hub) : Prop :=
  h.pass = none
    ∧ h.clients.Nodup
    ∧ (∀ ch ∈ h.clients, ch < h.next)
    ∧ (∀ ch, (h.chan ch).cap = 0 ∧ (h.chan ch).pending = 0 ∧ (h.chan ch).closed = false
        ∧ (h.chan ch).received = 0)

/-- The non-empty elements of a path, in order. -/
def elems (p : Bytes) : List Bytes := (p.splitOn slash).filter (fun e => decide (e ≠ []))

/-- The elements of a path written one after the other, each after a separator. -/
def renderElems : List Bytes → Bytes
  | [] => []
  | e :: es => slash :: e ++ renderElems es

/-- The rooted path with the given elements: `/` alone when there are none. -/
def rootedForm (es : List Bytes) : Bytes := if es = [] then [slash] else renderElems es

/-- A path element that names a file or directory: not empty, not `.`, not `..`, and without
a separator. -/
def IsReal (e : Bytes) : Prop := e ≠ [] ∧ e ≠ [0x2E] ∧ e ≠ dotdot ∧ slash ∉ e

/-- A served root as `main` makes it with `filepath.Abs`: absolute and clean. -/
def CleanAbs (root : Bytes) : Prop := root.head? = some slash ∧ clean root = root

/-- The path `p` lies in the directory tree of `root`: it is `root` itself, or `root`
followed by a separator and more, or, for the root `/`, any rooted path; and each of its
elements names a file or directory, none is `.` or `..`, so that what follows the root leads
downwards only. -/
def InTree (root p : Bytes) : Prop :=
  (p = root ∨ (root ++ [slash]) <+: p ∨ (root = [slash] ∧ [slash] <+: p))
    ∧ ∀ e ∈ elems p, IsReal e

/-- The request path of the scenario, `/../../etc/passwd`. -/
def passwdPath : Bytes := ascii "/../../etc/passwd"

/-- A run of the hub: two handlers register, the second blocks in its `select`, the first
unsubscribes and closes its channel, then a broadcast runs to its end. -/
def exampleRun : List HubEvent :=
  [HubEvent.subscribe, HubEvent.subscribe, HubEvent.await 1, HubEvent.unsubscribeDelete 0,
   HubEvent.unsubscribeClose 0, HubEvent.broadcastBegin, HubEvent.broadcastNext,
   HubEvent.broadcastNext]


/-! # Properties -/

/-! ## The library functions on examples -/

/-- The function `filepath.Clean` on examples of each of its rules. -/
theorem clean_examples :
    clean (ascii "") = ascii "." ∧ clean (ascii "/") = ascii "/"
      ∧ clean (ascii "a//b/./c/") = ascii "a/b/c"
      ∧ clean (ascii "a/b/../c") = ascii "a/c"
      ∧ clean (ascii "a/../../b") = ascii "../b"
      ∧ clean (ascii "/../a") = ascii "/a"
      ∧ clean (ascii "a/..") = ascii "."
      ∧ clean (ascii "../../x") = ascii "../../x"
      ∧ join (ascii "/srv/www") (ascii "/index.php") = ascii "/srv/www/index.php"
      ∧ join (ascii "/") (ascii "/a") = ascii "/a" := by
  decide

/-- The function `filepath.Ext` on examples. -/
theorem fileExt_examples :
    fileExt (ascii "/srv/www/index.PHP") = ascii ".PHP"
      ∧ fileExt (ascii "/srv/www.d/readme") = ascii ""
      ∧ fileExt (ascii "archive.tar.gz") = ascii ".gz"
      ∧ fileExt (ascii "/srv/.hidden") = ascii ".hidden" := by
  decide

/-- The functions of packages `bytes`, `strings` and `strconv` on ASCII examples. -/
theorem strings_examples :
    trimSpace asciiOnly (ascii " \t201 Created \r\n") = ascii "201 Created"
      ∧ fields asciiOnly (ascii "  201   Created ") = [ascii "201", ascii "Created"]
      ∧ fields asciiOnly (ascii "   ") = []
      ∧ atoi (ascii "201") = some 201 ∧ atoi (ascii "+7") = some 7
      ∧ atoi (ascii "-7") = some (-7) ∧ atoi (ascii "") = none
      ∧ atoi (ascii "20x") = none ∧ atoi (ascii "9223372036854775808") = none
      ∧ equalFold asciiOnly (ascii "sTaTuS") statusName = true
      ∧ equalFold asciiOnly (ascii "Status ") statusName = false
      ∧ contains (ascii "text/html; charset=utf-8") textHtml = true
      ∧ contains (ascii "application/json") textHtml = false
      ∧ split (ascii "a\r\n\r\nb") crlf = [ascii "a", ascii "", ascii "b"]
      ∧ split (ascii "") crlf = [ascii ""]
      ∧ splitN2 (ascii "h\r\n\r\nb\r\n\r\nc") crlfcrlf = [ascii "h", ascii "b\r\n\r\nc"]
      ∧ toLower asciiOnly (ascii "Text/HTML") = textHtml
      ∧ lastIndex (ascii "</body></body>") closingBody = some 7
      ∧ lastIndex (ascii "<body>") closingBody = none := by
  decide

/-- The functions of package `unicode/utf8` on examples: two, three and four bytes, and a
lead byte without continuation. -/
theorem utf8_examples :
    decodeRune [0xC3, 0xA9] = (0xE9, 2) ∧ encodeRune 0xE9 = [0xC3, 0xA9]
      ∧ decodeRune [0xE2, 0x82, 0xAC] = (0x20AC, 3) ∧ encodeRune 0x20AC = [0xE2, 0x82, 0xAC]
      ∧ decodeRune [0xF0, 0x9F, 0x98, 0x80] = (0x1F600, 4)
      ∧ encodeRune 0x1F600 = [0xF0, 0x9F, 0x98, 0x80]
      ∧ decodeRune [0xE9, 0x3C] = (runeError, 1)
      ∧ decodeRune [0xC0, 0x80] = (runeError, 1)
      ∧ decodeRune [0xED, 0xA0, 0x80] = (runeError, 1)
      ∧ encodeRune runeError = [0xEF, 0xBF, 0xBD] := by
  decide

/-! ## The injector -/

/-- ASCII-only input is lowered byte by byte. -/
theorem toLower_of_ascii (U : Unicode) (s : Bytes) (hs : ∀ c ∈ s, c < 0x80) :
    toLower U s = s.map asciiLower := by
  have : s.all (fun c => decide (c < runeSelf)) = true := by
    simpa [List.all_eq_true, runeSelf] using hs
  simp [toLower, this]

/-- A prefix test does not look beyond the length of the prefix. -/
theorem isPrefixOf_take (p : Bytes) : ∀ (l : Bytes) (n : Nat), p.length ≤ n →
    p.isPrefixOf (l.take n) = p.isPrefixOf l := by
  induction p with
  | nil => intro l n _; simp
  | cons a p ih =>
    intro l n hn
    cases l with
    | nil => simp
    | cons b l =>
      cases n with
      | zero => simp at hn
      | succ n =>
        simp only [List.take_succ_cons, List.isPrefixOf]
        rw [ih l n (by simpa using hn)]

/-- On the lowered copy of ASCII content the byte search finds the tags of the content. -/
theorem isPrefixOf_map_lower (l : Bytes) :
    closingBody.isPrefixOf (l.map asciiLower) = tagAt l := by
  unfold tagAt
  rw [List.map_take, isPrefixOf_take _ _ 7 (by decide)]

/-- The scan of the lowered copy and the scan of the content agree. -/
theorem lastIndexFrom_map_lower (l : Bytes) : ∀ (i : Nat) (acc : Option Nat),
    lastIndexFrom closingBody (l.map asciiLower) i acc = lastTagFrom l i acc := by
  induction l with
  | nil => intro i acc; simp [lastIndexFrom, lastTagFrom, closingBody]
  | cons c rest ih =>
    intro i acc
    simp only [List.map_cons, lastIndexFrom, lastTagFrom]
    rw [← List.map_cons, isPrefixOf_map_lower]
    exact ih _ _

/-- A position found by the scan lies inside the content. -/
theorem lastTagFrom_lt (l : Bytes) : ∀ (i : Nat) (acc : Option Nat) (k : Nat),
    lastTagFrom l i acc = some k → acc = some k ∨ (i ≤ k ∧ k < i + l.length) := by
  induction l with
  | nil => intro i acc k h; left; simpa [lastTagFrom] using h
  | cons c rest ih =>
    intro i acc k h
    simp only [lastTagFrom] at h
    rcases ih _ _ _ h with h1 | ⟨h1, h2⟩
    · by_cases ht : tagAt (c :: rest) = true
      · simp only [ht, if_true, Option.some.injEq] at h1
        right; simp only [List.length_cons]; omega
      · simp only [ht] at h1
        left; simpa using h1
    · right; simp only [List.length_cons]; omega

/-- On ASCII content the injector does what the specification says: the snippet goes
immediately before the last closing body tag, or at the end when there is none. -/
theorem injectLiveReload_of_ascii (U : Unicode) (html : Bytes) (hs : ∀ c ∈ html, c < 0x80) :
    injectLiveReload U html = some (injectSpec html) := by
  unfold injectLiveReload injectSpec lastIndex
  rw [toLower_of_ascii U html hs, lastIndexFrom_map_lower]
  cases h : lastTagFrom html 0 none with
  | none => rfl
  | some k =>
    rcases lastTagFrom_lt html 0 none k h with h1 | ⟨_, h2⟩
    · simp at h1
    · have : k ≤ html.length := by omega
      simp [this]

/-- Whatever the injector returns is longer than its input by the length of the snippet. -/
theorem injectLiveReload_length (U : Unicode) (html out : Bytes)
    (h : injectLiveReload U html = some out) :
    out.length = html.length + liveReloadSnippet.length := by
  unfold injectLiveReload at h
  cases hi : lastIndex (toLower U html) closingBody with
  | none =>
    simp only [hi, Option.some.injEq] at h
    subst h; simp
  | some idx =>
    simp only [hi] at h
    by_cases hle : idx ≤ html.length
    · simp only [hle, if_true, Option.some.injEq] at h
      subst h
      simp only [List.length_append, List.length_take, List.length_drop]
      omega
    · simp [hle] at h

set_option maxRecDepth 100000 in
/-- The snippet is not empty. -/
theorem liveReloadSnippet_length : liveReloadSnippet.length = 354 := by rfl

/-- The lowered copy of a page with a byte that is not valid UTF-8 is longer than the page:
the byte becomes the three bytes of U+FFFD. -/
theorem toLower_latin1Page (U : Unicode) (h : U.lower 0xFFFD = 0xFFFD) :
    toLower U latin1Page = [0xEF, 0xBF, 0xBD, 0x3C, 0x2F, 0x62, 0x6F, 0x64, 0x79, 0x3E] := by
  simp [toLower, latin1Page, bytesMap, bytesMapLoop, decodeRune, leadInfo, runeSelf,
    unicodeToLower, asciiLower, encodeRune, encode3, runeError, h]

/-- With four bytes that are not valid UTF-8 the lowered copy is longer by eight. -/
theorem toLower_latin1Page4 (U : Unicode) (h : U.lower 0xFFFD = 0xFFFD) :
    toLower U latin1Page4
      = [0xEF, 0xBF, 0xBD, 0xEF, 0xBF, 0xBD, 0xEF, 0xBF, 0xBD, 0xEF, 0xBF, 0xBD,
         0x3C, 0x2F, 0x62, 0x6F, 0x64, 0x79, 0x3E] := by
  simp [toLower, latin1Page4, bytesMap, bytesMapLoop, decodeRune, leadInfo, runeSelf,
    unicodeToLower, asciiLower, encodeRune, encode3, runeError, h]

/-- C1 (the code departs from the claim): on content that is not ASCII the index found in
the lowered copy is not an index of the content.  For the byte `0xE9` followed by `</body>`
the specification puts the snippet before the tag; the code puts it two bytes further, inside
the tag.  For four such bytes followed by `</body>` the index lies beyond the content and
the code faults.  The case table is any that, as the one of Go, leaves U+FFFD alone. -/
theorem injectLiveReload_latin1 (U : Unicode) (h : U.lower 0xFFFD = 0xFFFD) :
    injectLiveReload U latin1Page
        = some ([0xE9, 0x3C, 0x2F] ++ liveReloadSnippet ++ [0x62, 0x6F, 0x64, 0x79, 0x3E])
      ∧ injectSpec latin1Page = [0xE9] ++ liveReloadSnippet ++ closingBody
      ∧ injectLiveReload U latin1Page ≠ some (injectSpec latin1Page)
      ∧ injectLiveReload U latin1Page4 = none := by
  have h4 : injectLiveReload U latin1Page4 = none := by
    unfold injectLiveReload
    rw [toLower_latin1Page4 U h]
    rfl
  have h1 : injectLiveReload U latin1Page
      = some ([0xE9, 0x3C, 0x2F] ++ liveReloadSnippet ++ [0x62, 0x6F, 0x64, 0x79, 0x3E]) := by
    unfold injectLiveReload
    rw [toLower_latin1Page U h]
    rfl
  have h2 : injectSpec latin1Page = [0xE9] ++ liveReloadSnippet ++ closingBody := by rfl
  refine ⟨h1, h2, ?_, h4⟩
  rw [h1, h2]
  decide

/-- The theorem `injectLiveReload_latin1` at the library `asciiOnly`. -/
theorem injectLiveReload_latin1_witness :
    asciiOnly.lower 0xFFFD = 0xFFFD
      ∧ injectLiveReload asciiOnly latin1Page
        = some ([0xE9, 0x3C, 0x2F] ++ liveReloadSnippet ++ [0x62, 0x6F, 0x64, 0x79, 0x3E]) :=
  ⟨rfl, (injectLiveReload_latin1 asciiOnly rfl).1⟩

/-! ## The CGI output -/

/-- Without an occurrence of the separator there is no cut. -/
theorem cutFirst_none (sep : Bytes) : ∀ s : Bytes, ¬ sep <:+: s → cutFirst sep s = none := by
  intro s
  induction s with
  | nil => intro _; rfl
  | cons c rest ih =>
    intro h
    have hp : sep.isPrefixOf (c :: rest) = false := by
      cases hq : sep.isPrefixOf (c :: rest) with
      | false => rfl
      | true => exact absurd (List.isPrefixOf_iff_prefix.mp hq).isInfix h
    have hr : ¬ sep <:+: rest := fun hi => h (List.infix_cons hi)
    simp [cutFirst, hp, ih hr]

/-- The cut is made at the first occurrence of the separator. -/
theorem cutFirst_first (sep : Bytes) (hsep : sep ≠ []) : ∀ (s a b : Bytes),
    s = a ++ sep ++ b → (∀ a' b', s = a' ++ sep ++ b' → a.length ≤ a'.length) →
    cutFirst sep s = some (a, b) := by
  intro s
  induction s with
  | nil =>
    intro a b hs _
    have : sep = [] := by
      have := congrArg List.length hs
      simp at this
      exact List.length_eq_zero.mp (by omega)
    exact absurd this hsep
  | cons c rest ih =>
    intro a b hs hmin
    by_cases hp : sep.isPrefixOf (c :: rest) = true
    · obtain ⟨t, ht⟩ := List.isPrefixOf_iff_prefix.mp hp
      have ha : a = [] := by
        have := hmin [] t (by simpa using ht.symm)
        exact List.length_eq_zero.mp (Nat.le_zero.mp this)
      subst ha
      have hb : (c :: rest).drop sep.length = b := by
        rw [hs]; simp
      simp [cutFirst, hp, hb]
    · cases a with
      | nil =>
        exfalso
        apply hp
        apply List.isPrefixOf_iff_prefix.mpr
        exact ⟨b, by simpa using hs.symm⟩
      | cons a0 a1 =>
        simp only [List.cons_append, List.cons.injEq] at hs
        obtain ⟨hc, hrest⟩ := hs
        subst hc
        have hmin1 : ∀ a' b', rest = a' ++ sep ++ b' → a1.length ≤ a'.length := by
          intro a' b' h'
          have := hmin (c :: a') b' (by simp [h'])
          simpa using this
        have hcut := ih a1 b hrest hmin1
        simp [cutFirst, hp, hcut]

/-- What the cut returns: the input is the first part, the separator and the second part,
and no occurrence of the separator starts earlier. -/
theorem cutFirst_spec (sep : Bytes) : ∀ (s a b : Bytes), cutFirst sep s = some (a, b) →
    s = a ++ sep ++ b ∧ ∀ a' b', s = a' ++ sep ++ b' → a.length ≤ a'.length := by
  intro s
  induction s with
  | nil => intro a b h; simp [cutFirst] at h
  | cons c rest ih =>
    intro a b h
    by_cases hp : sep.isPrefixOf (c :: rest) = true
    · simp only [cutFirst, hp, if_true, Option.some.injEq, Prod.mk.injEq] at h
      obtain ⟨ha, hb⟩ := h
      obtain ⟨t, ht⟩ := List.isPrefixOf_iff_prefix.mp hp
      subst ha
      refine ⟨?_, fun _ _ _ => Nat.zero_le _⟩
      rw [← hb, ← ht]
      simp
    · simp only [cutFirst, hp, Bool.false_eq_true, if_false, Option.map_eq_some',
        Prod.mk.injEq] at h
      obtain ⟨⟨a1, b1⟩, hcut, ha, hb⟩ := h
      obtain ⟨hrest, hmin⟩ := ih a1 b1 hcut
      simp only at ha hb
      subst ha hb
      refine ⟨by simp [hrest], ?_⟩
      intro a' b' h'
      cases a' with
      | nil =>
        exfalso
        apply hp
        apply List.isPrefixOf_iff_prefix.mpr
        exact ⟨b', by simpa using h'.symm⟩
      | cons a0 a2 =>
        simp only [List.cons_append, List.cons.injEq] at h'
        have := hmin a2 b' h'.2
        simpa using this

/-- The two separators are not empty. -/
theorem crlfcrlf_ne_nil : crlfcrlf ≠ [] := by decide

/-- One iteration of the header loop, read through the header of the line. -/
theorem headerStep_eq (U : Unicode) (st : HeaderLoop) (line : Bytes) :
    headerStep U st line =
      if faulted st.calls then st
      else
        match parseHeader U line with
        | none => st
        | some hdr =>
          if isStatus U hdr then
            (match statusCode U hdr.2 with
             | some code => { st with calls := st.calls ++ callWriteHeader st.calls code }
             | none => st)
          else if isContentType U hdr then
            { contentType := hdr.2, calls := st.calls ++ [Call.headerAdd hdr.1 hdr.2] }
          else { st with calls := st.calls ++ [Call.headerAdd hdr.1 hdr.2] } := by
  unfold headerStep parseHeader
  by_cases hf : faulted st.calls = true
  · simp only [hf, if_true]
  · simp only [hf, Bool.false_eq_true, if_false]
    by_cases h0 : line.length = 0
    · have : line = [] := List.length_eq_zero.mp h0
      subst this
      simp [indexByte]
    · simp only [h0, if_false]
      cases hc : indexByte line 0x3A with
      | none => rfl
      | some colon =>
        simp only [isStatus, isContentType, statusCode]
        by_cases hs : equalFold U (trimSpace U (List.take colon line)) statusName = true
        · simp only [hs, if_true]
          cases hf : fields U (trimSpace U (List.drop (colon + 1) line)) with
          | nil => rfl
          | cons f fs => cases ha : atoi f <;> rfl
        · simp only [hs]
          rfl

/-- A call of the header loop that returns is no fault. -/
theorem faulted_append_headerCall (calls : List Call) (c : Call)
    (hc : c.isHeaderCall = true) : faulted (calls ++ [c]) = faulted calls := by
  unfold faulted
  cases c <;> simp [Call.isHeaderCall, Call.isFault] at hc ⊢

/-- Calls of the header loop that return hold no fault. -/
theorem faulted_of_headerCalls (calls : List Call)
    (h : ∀ c ∈ calls, c.isHeaderCall = true) : faulted calls = false := by
  unfold faulted
  rw [List.any_eq_false]
  intro c hc
  have := h c hc
  cases c <;> simp [Call.isHeaderCall, Call.isFault] at this ⊢

/-- The call the header loop makes for a header is a `WriteHeader` or a `Header().Add`. -/
theorem headerCall_isHeaderCall (U : Unicode) (hdr : Bytes × Bytes) (c : Call)
    (h : headerCall U hdr = some c) : c.isHeaderCall = true := by
  unfold headerCall at h
  by_cases hs : isStatus U hdr = true
  · simp only [hs, if_true] at h
    cases hc : statusCode U hdr.2 with
    | none => simp [hc] at h
    | some code =>
      simp only [hc, Option.map_some', Option.some.injEq] at h
      subst h
      rfl
  · simp only [hs, Bool.false_eq_true, if_false, Option.some.injEq] at h
    subst h
    rfl

/-- The calls the header loop makes for the headers are `WriteHeader` and `Header().Add`. -/
theorem headerCalls_isHeaderCall (U : Unicode) (hdrs : List (Bytes × Bytes)) :
    ∀ c ∈ hdrs.filterMap (headerCall U), c.isHeaderCall = true := by
  intro c hc
  obtain ⟨hdr, _, h⟩ := List.mem_filterMap.mp hc
  exact headerCall_isHeaderCall U hdr c h

/-- The condition on the codes of the `Status` headers, header by header. -/
theorem statusCodesAll_cons (ok : Int → Bool) (U : Unicode) (hdr : Bytes × Bytes)
    (hdrs : List (Bytes × Bytes)) :
    statusCodesAll ok U (hdr :: hdrs) = true ↔
      (isStatus U hdr = true → ∀ code, statusCode U hdr.2 = some code → ok code = true)
        ∧ statusCodesAll ok U hdrs = true := by
  unfold statusCodesAll
  rw [List.all_cons, Bool.and_eq_true]
  apply and_congr_left
  intro _
  by_cases hs : isStatus U hdr = true
  · cases hc : statusCode U hdr.2 with
    | none => simp [hs]
    | some code => simp [hs]
  · simp [hs]

/-- A condition on the codes that implies another does so on the headers. -/
theorem statusCodesAll_mono (ok ok2 : Int → Bool) (hok : ∀ c, ok c = true → ok2 c = true)
    (U : Unicode) (hdrs : List (Bytes × Bytes)) (h : statusCodesAll ok U hdrs = true) :
    statusCodesAll ok2 U hdrs = true := by
  induction hdrs with
  | nil => rfl
  | cons hdr rest ih =>
    rw [statusCodesAll_cons] at h ⊢
    exact ⟨fun hs code hc => hok code (h.1 hs code hc), ih h.2⟩

/-- One iteration of the header loop before any fault, on a line whose `Status` code, if it
has one, is within 100..999: the call for the header is made and returns. -/
theorem headerStep_valid (U : Unicode) (st : HeaderLoop) (line : Bytes)
    (hnf : faulted st.calls = false)
    (hv : ∀ hdr, parseHeader U line = some hdr → isStatus U hdr = true →
      ∀ code, statusCode U hdr.2 = some code → validCode code = true) :
    (headerStep U st line).calls
        = st.calls ++ ((parseHeader U line).bind (headerCall U)).toList
      ∧ faulted (headerStep U st line).calls = false
      ∧ (headerStep U st line).contentType
          = (match parseHeader U line with
             | none => st.contentType
             | some hdr =>
               if isStatus U hdr then st.contentType
               else if isContentType U hdr then hdr.2 else st.contentType) := by
  rw [headerStep_eq]
  simp only [hnf, Bool.false_eq_true, if_false]
  cases hp : parseHeader U line with
  | none => simp [hnf]
  | some hdr =>
    by_cases hs : isStatus U hdr = true
    · cases hc : statusCode U hdr.2 with
      | none =>
        have hcall : headerCall U hdr = none := by simp [headerCall, hs, hc]
        simp [hs, hc, hcall, hnf]
      | some code =>
        have hvc := hv hdr hp hs code hc
        have hw : callWriteHeader st.calls code = [Call.writeHeader code] := by
          unfold callWriteHeader
          simp [hvc]
        have hcall : headerCall U hdr = some (Call.writeHeader code) := by
          simp [headerCall, hs, hc]
        simp [hs, hc, hw, hcall, hnf,
          faulted_append_headerCall st.calls (Call.writeHeader code) rfl]
    · have hcall : headerCall U hdr = some (Call.headerAdd hdr.1 hdr.2) := by
        simp [headerCall, hs]
      by_cases hct : isContentType U hdr = true
      · simp [hs, hct, hcall, hnf,
          faulted_append_headerCall st.calls (Call.headerAdd hdr.1 hdr.2) rfl]
      · simp [hs, hct, hcall, hnf,
          faulted_append_headerCall st.calls (Call.headerAdd hdr.1 hdr.2) rfl]

/-- The header loop over lines whose `Status` codes are all within 100..999: it makes the
calls for the headers, in order, and does not fault. -/
theorem headerLoop_calls (U : Unicode) (lines : List Bytes) : ∀ st : HeaderLoop,
    faulted st.calls = false →
    statusCodesAll validCode U (lines.filterMap (parseHeader U)) = true →
    (lines.foldl (headerStep U) st).calls
        = st.calls ++ (lines.filterMap (parseHeader U)).filterMap (headerCall U)
      ∧ faulted (lines.foldl (headerStep U) st).calls = false := by
  induction lines with
  | nil => intro st hnf _; simpa using hnf
  | cons line rest ih =>
    intro st hnf hv
    rw [List.foldl_cons]
    cases hp : parseHeader U line with
    | none =>
      have hstep := headerStep_valid U st line hnf (by intro hdr h; rw [hp] at h; cases h)
      rw [List.filterMap_cons, hp] at hv ⊢
      obtain ⟨h1, h2⟩ := ih (headerStep U st line) hstep.2.1 hv
      refine ⟨?_, h2⟩
      rw [h1, hstep.1, hp]
      simp
    | some hdr =>
      rw [List.filterMap_cons, hp] at hv
      rw [statusCodesAll_cons] at hv
      have hstep := headerStep_valid U st line hnf
        (by intro hdr2 h; rw [hp] at h; cases h; exact hv.1)
      obtain ⟨h1, h2⟩ := ih (headerStep U st line) hstep.2.1 hv.2
      refine ⟨?_, h2⟩
      rw [h1, hstep.1, hp]
      simp only [List.filterMap_cons, hp, Option.some_bind]
      cases headerCall U hdr <;> simp

/-- The content type the header loop tracks over lines whose `Status` codes are all within
100..999 is the value of the last `Content-Type` header, when no header name is both `Status`
and `Content-Type`. -/
theorem headerLoop_contentType (U : Unicode)
    (hnames : ∀ key, equalFold U key statusName = true → equalFold U key contentTypeName = false)
    (lines : List Bytes) : ∀ st : HeaderLoop,
    faulted st.calls = false →
    statusCodesAll validCode U (lines.filterMap (parseHeader U)) = true →
    (lines.foldl (headerStep U) st).contentType
      = ((((lines.filterMap (parseHeader U)).filter (isContentType U)).getLast?).map
          (fun hdr => hdr.2)).getD st.contentType := by
  induction lines with
  | nil => intro st _ _; simp
  | cons line rest ih =>
    intro st hnf hv
    rw [List.foldl_cons]
    cases hp : parseHeader U line with
    | none =>
      have hstep := headerStep_valid U st line hnf (by intro hdr h; rw [hp] at h; cases h)
      rw [List.filterMap_cons, hp] at hv ⊢
      rw [ih (headerStep U st line) hstep.2.1 hv, hstep.2.2, hp]
    | some hdr =>
      rw [List.filterMap_cons, hp] at hv ⊢
      rw [statusCodesAll_cons] at hv
      have hstep := headerStep_valid U st line hnf
        (by intro hdr2 h; rw [hp] at h; cases h; exact hv.1)
      rw [ih (headerStep U st line) hstep.2.1 hv.2, hstep.2.2, hp]
      by_cases hs : isStatus U hdr = true
      · have hct : isContentType U hdr = false := hnames hdr.1 hs
        simp [hs, hct]
      · by_cases hct : isContentType U hdr = true
        · simp only [hs, hct, if_true, Bool.false_eq_true, if_false, List.filter_cons]
          rw [List.getLast?_cons]
          cases hl : (List.filter (isContentType U) (List.filterMap (parseHeader U) rest)).getLast?
            <;> simp
        · simp [hs, hct]

/-- After the calls for headers whose `Status` codes are all 101 or within 200..999, the
status the first `Write` finds is the code of the first `Status` header that carries one, and
200 when there is none. -/
theorem firstStatus_headerCalls (U : Unicode) (data : Bytes) :
    ∀ hdrs : List (Bytes × Bytes), statusCodesAll finalCode U hdrs = true →
    firstStatus (hdrs.filterMap (headerCall U) ++ [Call.write data])
      = some (specStatus U hdrs) := by
  intro hdrs
  induction hdrs with
  | nil => intro _; rfl
  | cons hdr rest ih =>
    intro hv
    rw [statusCodesAll_cons] at hv
    have hrest := ih hv.2
    by_cases hs : isStatus U hdr = true
    · cases hc : statusCode U hdr.2 with
      | none =>
        have hcall : headerCall U hdr = none := by simp [headerCall, hs, hc]
        have hspec : specStatus U (hdr :: rest) = specStatus U rest := by
          simp [specStatus, List.filter_cons, hs, hc]
        rw [List.filterMap_cons, hcall, hspec, ← hrest]
      | some code =>
        have hcall : headerCall U hdr = some (Call.writeHeader code) := by
          simp [headerCall, hs, hc]
        have hfin := hv.1 hs code hc
        unfold finalCode at hfin
        rw [Bool.and_eq_true] at hfin
        have hinf : isInformational code = false := by simpa using hfin.2
        have hspec : specStatus U (hdr :: rest) = code := by
          simp [specStatus, List.filter_cons, hs, hc]
        rw [List.filterMap_cons, hcall, hspec]
        show (if isInformational code = true then _
          else if validCode code = true then some code else none) = some code
        rw [hinf, hfin.1]
        rfl
    · have hcall : headerCall U hdr = some (Call.headerAdd hdr.1 hdr.2) := by
        simp [headerCall, hs]
      have hspec : specStatus U (hdr :: rest) = specStatus U rest := by
        simp [specStatus, List.filter_cons, hs]
      rw [List.filterMap_cons, hcall, hspec, ← hrest]
      rfl

/-- After the calls for headers none of whose `Status` headers carries a code, the headers
the first `Write` sends are those not named `Status`, in order. -/
theorem sentFrom_headerCalls (U : Unicode) (data : Bytes) :
    ∀ (hdrs acc : List (Bytes × Bytes)), statusCodesAll noCode U hdrs = true →
    sentFrom acc (hdrs.filterMap (headerCall U) ++ [Call.write data])
      = acc ++ hdrs.filter (fun hdr => !isStatus U hdr) := by
  intro hdrs
  induction hdrs with
  | nil => intro acc _; simp [sentFrom]
  | cons hdr rest ih =>
    intro acc hv
    rw [statusCodesAll_cons] at hv
    by_cases hs : isStatus U hdr = true
    · cases hc : statusCode U hdr.2 with
      | none =>
        have hcall : headerCall U hdr = none := by simp [headerCall, hs, hc]
        rw [List.filterMap_cons, hcall, ih acc hv.2]
        simp [List.filter_cons, hs]
      | some code =>
        have := hv.1 hs code hc
        simp [noCode] at this
    · have hcall : headerCall U hdr = some (Call.headerAdd hdr.1 hdr.2) := by
        simp [headerCall, hs]
      have hfil : (hdr :: rest).filter (fun hdr => !isStatus U hdr)
          = hdr :: rest.filter (fun hdr => !isStatus U hdr) := by
        simp [List.filter_cons, hs]
      rw [List.filterMap_cons, hcall, hfil]
      change sentFrom (acc ++ [(hdr.1, hdr.2)])
        (List.filterMap (headerCall U) rest ++ [Call.write data]) = _
      rw [ih _ hv.2]
      simp

/-- After the calls for any headers, whatever the first `Write` sends was set before or is
one of the headers not named `Status`. -/
theorem sentFrom_headerCalls_mem (U : Unicode) (data : Bytes) :
    ∀ (hdrs acc : List (Bytes × Bytes)),
    ∀ h ∈ sentFrom acc (hdrs.filterMap (headerCall U) ++ [Call.write data]),
      h ∈ acc ∨ (h ∈ hdrs ∧ isStatus U h = false) := by
  intro hdrs
  induction hdrs with
  | nil => intro acc h hm; left; simpa [sentFrom] using hm
  | cons hdr rest ih =>
    intro acc h hm
    by_cases hs : isStatus U hdr = true
    · cases hc : statusCode U hdr.2 with
      | none =>
        have hcall : headerCall U hdr = none := by simp [headerCall, hs, hc]
        rw [List.filterMap_cons, hcall] at hm
        rcases ih acc h hm with h1 | h1
        · exact Or.inl h1
        · exact Or.inr ⟨List.mem_cons_of_mem _ h1.1, h1.2⟩
      | some code =>
        have hcall : headerCall U hdr = some (Call.writeHeader code) := by
          simp [headerCall, hs, hc]
        rw [List.filterMap_cons, hcall] at hm
        simp only [List.cons_append, sentFrom] at hm
        by_cases hinf : isInformational code = true
        · simp only [hinf, if_true] at hm
          rcases ih acc h hm with h1 | h1
          · exact Or.inl h1
          · exact Or.inr ⟨List.mem_cons_of_mem _ h1.1, h1.2⟩
        · simp only [hinf, Bool.false_eq_true, if_false] at hm
          exact Or.inl hm
    · have hcall : headerCall U hdr = some (Call.headerAdd hdr.1 hdr.2) := by
        simp [headerCall, hs]
      rw [List.filterMap_cons, hcall] at hm
      simp only [List.cons_append, sentFrom] at hm
      rcases ih _ h hm with h1 | h1
      · rcases List.mem_append.mp h1 with h2 | h2
        · exact Or.inl h2
        · have := List.mem_singleton.mp h2
          subst this
          exact Or.inr ⟨List.mem_cons_self _ _, by simpa using hs⟩
      · exact Or.inr ⟨List.mem_cons_of_mem _ h1.1, h1.2⟩

/-- After calls of the header loop, the body written is the data of the `Write`. -/
theorem writtenBody_headerCalls_write (calls : List Call) (data : Bytes)
    (h : ∀ c ∈ calls, c.isHeaderCall = true) :
    writtenBody (calls ++ [Call.write data]) = some data := by
  induction calls with
  | nil => simp [writtenBody]
  | cons c rest ih =>
    have hrest : ∀ c' ∈ rest, c'.isHeaderCall = true :=
      fun c' hc' => h c' (List.mem_cons_of_mem _ hc')
    have hc := h c (List.mem_cons_self _ _)
    cases c with
    | writeHeader code => simpa [writtenBody] using ih hrest
    | headerAdd key val => simpa [writtenBody] using ih hrest
    | headerSet key val => simp [Call.isHeaderCall] at hc
    | write d => simp [Call.isHeaderCall] at hc
    | serveFile n => simp [Call.isHeaderCall] at hc
    | fault => simp [Call.isHeaderCall] at hc

/-- After calls of the header loop, a fault leaves no body written. -/
theorem writtenBody_headerCalls_fault (calls : List Call)
    (h : ∀ c ∈ calls, c.isHeaderCall = true) :
    writtenBody (calls ++ [Call.fault]) = none := by
  induction calls with
  | nil => simp [writtenBody]
  | cons c rest ih =>
    have hrest : ∀ c' ∈ rest, c'.isHeaderCall = true :=
      fun c' hc' => h c' (List.mem_cons_of_mem _ hc')
    have hc := h c (List.mem_cons_self _ _)
    cases c with
    | writeHeader code => simpa [writtenBody] using ih hrest
    | headerAdd key val => simpa [writtenBody] using ih hrest
    | headerSet key val => simp [Call.isHeaderCall] at hc
    | write d => simp [Call.isHeaderCall] at hc
    | serveFile n => simp [Call.isHeaderCall] at hc
    | fault => simp [Call.isHeaderCall] at hc

/-- The calls of `servePHP` for an output with a separator whose `Status` codes are all
within 100..999: the calls for the headers before the first separator, then the body,
injected when the tracked content type asks for it. -/
theorem servePHPOutput_of_cut (U : Unicode) (out headerBlock body : Bytes)
    (hcut : out = headerBlock ++ crlfcrlf ++ body)
    (hfirst : ∀ a b, out = a ++ crlfcrlf ++ b → headerBlock.length ≤ a.length)
    (hvalid : statusCodesAll validCode U (cgiHeaders U headerBlock) = true) :
    servePHPOutput U out =
      (cgiHeaders U headerBlock).filterMap (headerCall U) ++
        [if contains (toLower U
              ((split headerBlock crlf).foldl (headerStep U) ⟨textHtml, []⟩).contentType)
            textHtml = true then
          (match injectLiveReload U body with
           | some injected => Call.write injected
           | none => Call.fault)
         else Call.write body] := by
  have h := cutFirst_first crlfcrlf crlfcrlf_ne_nil out headerBlock body hcut hfirst
  obtain ⟨hcalls, hnf⟩ := headerLoop_calls U (split headerBlock crlf) ⟨textHtml, []⟩ rfl hvalid
  unfold servePHPOutput splitN2
  simp only [h, hnf, Bool.false_eq_true, if_false]
  rw [hcalls]
  simp only [List.nil_append, cgiHeaders]
  split
  · cases injectLiveReload U body <;> rfl
  · rfl

/-- C8: a successful CGI output without the sequence CR LF CR LF is answered with status
200, no header taken from the output, and the whole output, unchanged, as the body. -/
theorem servePHPOutput_without_separator (U : Unicode) (out : Bytes)
    (h : ¬ crlfcrlf <:+: out) :
    servePHPOutput U out = [Call.writeHeader 200, Call.write out]
      ∧ statusOf (servePHPOutput U out) = some 200
      ∧ addedHeaders (servePHPOutput U out) = []
      ∧ writtenBody (servePHPOutput U out) = some out := by
  have hcalls : servePHPOutput U out = [Call.writeHeader 200, Call.write out] := by
    unfold servePHPOutput splitN2
    rw [cutFirst_none crlfcrlf out h]
  rw [hcalls]
  refine ⟨rfl, rfl, rfl, ?_⟩
  simp [writtenBody]

/-- The theorem `servePHPOutput_without_separator` at the output `hello`. -/
theorem servePHPOutput_without_separator_witness :
    ¬ crlfcrlf <:+: ascii "hello"
      ∧ servePHPOutput asciiOnly (ascii "hello")
          = [Call.writeHeader 200, Call.write (ascii "hello")] :=
  ⟨by decide, (servePHPOutput_without_separator asciiOnly (ascii "hello") (by decide)).1⟩

/-- The calls of `servePHP` for an output with a separator whose `Status` codes are all
within 100..999 end in the `Write` of the body, or in a fault of the injector. -/
theorem servePHPOutput_cases (U : Unicode) (out headerBlock body : Bytes)
    (hcut : out = headerBlock ++ crlfcrlf ++ body)
    (hfirst : ∀ a b, out = a ++ crlfcrlf ++ b → headerBlock.length ≤ a.length)
    (hvalid : statusCodesAll validCode U (cgiHeaders U headerBlock) = true) :
    (∃ data, servePHPOutput U out
        = (cgiHeaders U headerBlock).filterMap (headerCall U) ++ [Call.write data])
      ∨ servePHPOutput U out
        = (cgiHeaders U headerBlock).filterMap (headerCall U) ++ [Call.fault] := by
  rw [servePHPOutput_of_cut U out headerBlock body hcut hfirst hvalid]
  split
  · cases injectLiveReload U body with
    | none => right; rfl
    | some injected => left; exact ⟨injected, rfl⟩
  · left; exact ⟨body, rfl⟩

/-- Calls that end in a fault are faulted. -/
theorem faulted_append_fault (calls : List Call) : faulted (calls ++ [Call.fault]) = true := by
  simp [faulted, Call.isFault]

/-- Calls of the header loop that return, followed by a `Write`, hold no fault. -/
theorem faulted_headerCalls_write (calls : List Call) (data : Bytes)
    (h : ∀ c ∈ calls, c.isHeaderCall = true) :
    faulted (calls ++ [Call.write data]) = false := by
  have := faulted_of_headerCalls calls h
  unfold faulted at this ⊢
  rw [List.any_append, this]
  rfl

/-- Headers none of whose `Status` headers carries a code ask for the default status. -/
theorem specStatus_of_noCode (U : Unicode) : ∀ hdrs : List (Bytes × Bytes),
    statusCodesAll noCode U hdrs = true → specStatus U hdrs = 200 := by
  intro hdrs
  induction hdrs with
  | nil => intro _; rfl
  | cons hdr rest ih =>
    intro hv
    rw [statusCodesAll_cons] at hv
    have hrest := ih hv.2
    unfold specStatus at hrest ⊢
    by_cases hs : isStatus U hdr = true
    · cases hc : statusCode U hdr.2 with
      | none => simpa [List.filter_cons, hs, hc] using hrest
      | some code =>
        have := hv.1 hs code hc
        simp [noCode] at this
    · simpa [List.filter_cons, hs] using hrest

/-- A code that is written as the status of the response is within 100..999. -/
theorem validCode_of_finalCode (code : Int) (h : finalCode code = true) :
    validCode code = true := by
  unfold finalCode at h
  rw [Bool.and_eq_true] at h
  exact h.1

/-- C2, where the code departs from the claim.  For the output of the example, whose headers
are `Status: 201 Created` and `Content-Type: application/json`, the handler calls
`WriteHeader(201)` before `Header().Add("Content-Type", "application/json")`: the response
has the status 201 and the body `{"ok":true}`, but the header of the output is set after the
header of the response is written and is not sent.  With the two headers in the
other order it is sent.  A `Status` header with the code 99 ends the handler in a fault.
For every successful CGI output with a separator, `headerBlock` being what precedes the first
separator, and unless the handler faults: when every code of a `Status` header is 101 or
within 200..999, the status of the response is the integer value of the first token of the
first `Status` header that carries one, and 200 when none does; when no `Status` header
carries a code, the status is 200 and every header not named `Status` is sent, in order, name
and value trimmed; when every code is within 100..999, every header sent is a header of the
output and none is named `Status`. -/
theorem servePHPOutput_parse (U : Unicode) (out headerBlock body : Bytes)
    (hcut : out = headerBlock ++ crlfcrlf ++ body)
    (hfirst : ∀ a b, out = a ++ crlfcrlf ++ b → headerBlock.length ≤ a.length) :
    (exampleOutput = exampleHeaderBlock ++ crlfcrlf ++ exampleBody
        ∧ cgiHeaders U exampleHeaderBlock
            = [(ascii "Status", ascii "201 Created"),
               (ascii "Content-Type", ascii "application/json")]
        ∧ servePHPOutput U exampleOutput
            = [Call.writeHeader 201,
               Call.headerAdd (ascii "Content-Type") (ascii "application/json"),
               Call.write exampleBody]
        ∧ statusOf (servePHPOutput U exampleOutput) = some 201
        ∧ sentHeaders (servePHPOutput U exampleOutput) = some []
        ∧ writtenBody (servePHPOutput U exampleOutput) = some exampleBody)
      ∧ (statusOf (servePHPOutput U reorderedOutput) = some 201
        ∧ sentHeaders (servePHPOutput U reorderedOutput)
            = some [(ascii "Content-Type", ascii "application/json")]
        ∧ writtenBody (servePHPOutput U reorderedOutput) = some exampleBody)
      ∧ (servePHPOutput U badStatusOutput = [Call.writeHeader 99, Call.fault]
        ∧ statusOf (servePHPOutput U badStatusOutput) = none)
      ∧ (statusCodesAll finalCode U (cgiHeaders U headerBlock) = true →
          faulted (servePHPOutput U out) = false →
          statusOf (servePHPOutput U out) = some (specStatus U (cgiHeaders U headerBlock)))
      ∧ (statusCodesAll noCode U (cgiHeaders U headerBlock) = true →
          faulted (servePHPOutput U out) = false →
          statusOf (servePHPOutput U out) = some 200
            ∧ sentHeaders (servePHPOutput U out)
                = some ((cgiHeaders U headerBlock).filter (fun hdr => !isStatus U hdr)))
      ∧ (statusCodesAll validCode U (cgiHeaders U headerBlock) = true →
          ∀ sent, sentHeaders (servePHPOutput U out) = some sent →
          ∀ hdr ∈ sent, hdr ∈ cgiHeaders U headerBlock ∧ isStatus U hdr = false) := by
  have hhc := headerCalls_isHeaderCall U (cgiHeaders U headerBlock)
  refine ⟨⟨by rfl, by rfl, by rfl, by rfl, by rfl, by rfl⟩, ⟨by rfl, by rfl, by rfl⟩,
    ⟨by rfl, by rfl⟩, ?_, ?_, ?_⟩
  · intro hfin hnf
    have hvalid := statusCodesAll_mono finalCode validCode validCode_of_finalCode U _ hfin
    rcases servePHPOutput_cases U out headerBlock body hcut hfirst hvalid with ⟨d, hd⟩ | hd
    · rw [hd] at hnf ⊢
      unfold statusOf
      rw [hnf]
      exact firstStatus_headerCalls U d _ hfin
    · rw [hd, faulted_append_fault] at hnf
      cases hnf
  · intro hno hnf
    have hfin := statusCodesAll_mono noCode finalCode
      (by intro c h; simp [noCode] at h) U _ hno
    have hvalid := statusCodesAll_mono finalCode validCode validCode_of_finalCode U _ hfin
    rcases servePHPOutput_cases U out headerBlock body hcut hfirst hvalid with ⟨d, hd⟩ | hd
    · rw [hd] at hnf ⊢
      unfold statusOf sentHeaders
      rw [hnf]
      refine ⟨?_, ?_⟩
      · rw [← specStatus_of_noCode U _ hno]
        exact firstStatus_headerCalls U d _ hfin
      · simp only [Bool.false_eq_true, if_false]
        rw [sentFrom_headerCalls U d _ [] hno]
        rfl
    · rw [hd, faulted_append_fault] at hnf
      cases hnf
  · intro hvalid sent hsent hdr hmem
    rcases servePHPOutput_cases U out headerBlock body hcut hfirst hvalid with ⟨d, hd⟩ | hd
    · rw [hd] at hsent
      unfold sentHeaders at hsent
      rw [faulted_headerCalls_write _ d hhc] at hsent
      simp only [Bool.false_eq_true, if_false, Option.some.injEq] at hsent
      subst hsent
      rcases sentFrom_headerCalls_mem U d _ [] hdr hmem with h1 | h1
      · simp at h1
      · exact h1
    · rw [hd] at hsent
      unfold sentHeaders at hsent
      rw [faulted_append_fault] at hsent
      simp at hsent

/-- The header block of the output without `Status` header ends at its first separator. -/
theorem plainOutput_cut :
    plainOutput = plainHeaderBlock ++ crlfcrlf ++ ascii "hello"
      ∧ ∀ a b, plainOutput = a ++ crlfcrlf ++ b → plainHeaderBlock.length ≤ a.length :=
  cutFirst_spec crlfcrlf plainOutput plainHeaderBlock (ascii "hello") (by rfl)

/-- The header block of the HTML output ends at its first separator. -/
theorem htmlOutput_cut :
    htmlOutput = htmlHeaderBlock ++ crlfcrlf ++ ascii "<body>hi</body>"
      ∧ ∀ a b, htmlOutput = a ++ crlfcrlf ++ b → htmlHeaderBlock.length ≤ a.length :=
  cutFirst_spec crlfcrlf htmlOutput htmlHeaderBlock (ascii "<body>hi</body>") (by rfl)

/-- The theorem `servePHPOutput_parse` at an output without `Status` header: the status is
200 and both headers are sent. -/
theorem servePHPOutput_parse_witness :
    plainOutput = plainHeaderBlock ++ crlfcrlf ++ ascii "hello"
      ∧ statusCodesAll noCode asciiOnly (cgiHeaders asciiOnly plainHeaderBlock) = true
      ∧ faulted (servePHPOutput asciiOnly plainOutput) = false
      ∧ statusOf (servePHPOutput asciiOnly plainOutput) = some 200
      ∧ sentHeaders (servePHPOutput asciiOnly plainOutput)
          = some [(ascii "X-Powered-By", ascii "PHP/8.3"),
                  (ascii "Content-Type", ascii "text/plain")] :=
  ⟨plainOutput_cut.1, by rfl, by rfl,
   ((servePHPOutput_parse asciiOnly plainOutput plainHeaderBlock (ascii "hello")
      plainOutput_cut.1 plainOutput_cut.2).2.2.2.2.1 (by rfl) (by rfl)).1,
   ((servePHPOutput_parse asciiOnly plainOutput plainHeaderBlock (ascii "hello")
      plainOutput_cut.1 plainOutput_cut.2).2.2.2.2.1 (by rfl) (by rfl)).2.trans (by rfl)⟩

/-- In the library `asciiOnly` no header name is both `Status` and `Content-Type`. -/
theorem asciiOnly_names (key : Bytes) (h : equalFold asciiOnly key statusName = true) :
    equalFold asciiOnly key contentTypeName = false := by
  have hs : statusName = 0x53 :: [0x74, 0x61, 0x74, 0x75, 0x73] := by rfl
  have hc : contentTypeName
      = 0x43 :: [0x6F, 0x6E, 0x74, 0x65, 0x6E, 0x74, 0x2D, 0x54, 0x79, 0x70, 0x65] := by rfl
  rw [hs] at h
  rw [hc]
  cases key with
  | nil => simp [equalFold] at h
  | cons c s =>
    unfold equalFold at h ⊢
    by_cases h80 : runeSelf ≤ c
    · simp [h80, asciiOnly] at h
    · have h80' : ¬ (runeSelf ≤ c ∨ runeSelf ≤ 0x53) := by
        simp only [runeSelf] at h80 ⊢; omega
      have h80'' : ¬ (runeSelf ≤ c ∨ runeSelf ≤ 0x43) := by
        simp only [runeSelf] at h80 ⊢; omega
      have hcases : c = 0x53 ∨ c = 0x73 := by
        by_contra hne
        have h1 : ¬ ((0x53 : Nat) = c) := fun e => hne (Or.inl e.symm)
        have h2 : ¬ (0x41 ≤ min c 0x53 ∧ min c 0x53 ≤ 0x5A
            ∧ max c 0x53 = min c 0x53 + 0x20) := by
          rintro ⟨_, _, h2c⟩
          apply hne
          right
          omega
        rw [if_neg h80', if_neg h1, if_neg h2] at h
        exact Bool.false_ne_true h
      rw [if_neg h80'']
      rcases hcases with rfl | rfl <;> rw [if_neg (by decide), if_neg (by decide)]

/-- C7, where the code departs from the claim.  For a successful CGI output with a
separator, `body` being what follows the first separator and the final content type the value
of the last `Content-Type` header (`text/html` without one), and when every code of a
`Status` header is within 100..999: the body written is `injectLiveReload(body)` if and only
if the lowered final content type contains `text/html`; otherwise it is `body`, unchanged.
The library is any in which, as in Go, no header name is both `Status` and `Content-Type`
under `EqualFold`.  The output `Status: 99`, `Content-Type: text/plain`, body `x` has a
`Status` code outside 100..999 and a final content type without `text/html`, and its body is
not written: the handler ends in the fault of `WriteHeader(99)`. -/
theorem servePHPOutput_body (U : Unicode)
    (hnames : ∀ key, equalFold U key statusName = true → equalFold U key contentTypeName = false)
    (out headerBlock body : Bytes)
    (hcut : out = headerBlock ++ crlfcrlf ++ body)
    (hfirst : ∀ a b, out = a ++ crlfcrlf ++ b → headerBlock.length ≤ a.length)
    (hvalid : statusCodesAll validCode U (cgiHeaders U headerBlock) = true) :
    writtenBody (servePHPOutput U out)
        = (if contains (toLower U (finalContentType U (cgiHeaders U headerBlock))) textHtml
           then injectLiveReload U body else some body)
      ∧ (writtenBody (servePHPOutput U out) = injectLiveReload U body
          ↔ contains (toLower U (finalContentType U (cgiHeaders U headerBlock))) textHtml
              = true)
      ∧ (badStatusOutput = badStatusHeaderBlock ++ crlfcrlf ++ [0x78]
        ∧ statusCodesAll validCode U (cgiHeaders U badStatusHeaderBlock) = false
        ∧ contains (toLower U (finalContentType U (cgiHeaders U badStatusHeaderBlock)))
            textHtml = false
        ∧ servePHPOutput U badStatusOutput = [Call.writeHeader 99, Call.fault]
        ∧ writtenBody (servePHPOutput U badStatusOutput) = none) := by
  have hcalls := servePHPOutput_of_cut U out headerBlock body hcut hfirst hvalid
  have hct := headerLoop_contentType U hnames (split headerBlock crlf) ⟨textHtml, []⟩ rfl hvalid
  have hhc := headerCalls_isHeaderCall U (cgiHeaders U headerBlock)
  have hfin : ((split headerBlock crlf).foldl (headerStep U) ⟨textHtml, []⟩).contentType
      = finalContentType U (cgiHeaders U headerBlock) := by
    rw [hct]; rfl
  rw [hfin] at hcalls
  have hne : injectLiveReload U body ≠ some body := by
    intro h
    have := injectLiveReload_length U body body h
    rw [liveReloadSnippet_length] at this
    omega
  refine ⟨?_, ?_, ⟨by rfl, by rfl, by rfl, by rfl, by rfl⟩⟩
  · by_cases hc : contains (toLower U (finalContentType U (cgiHeaders U headerBlock))) textHtml
        = true
    · rw [hcalls]
      simp only [hc, if_true]
      cases hi : injectLiveReload U body with
      | none => exact writtenBody_headerCalls_fault _ hhc
      | some injected => exact writtenBody_headerCalls_write _ _ hhc
    · rw [hcalls]
      simp only [hc, Bool.false_eq_true, if_false]
      exact writtenBody_headerCalls_write _ _ hhc
  · by_cases hc : contains (toLower U (finalContentType U (cgiHeaders U headerBlock))) textHtml
        = true
    · have hw : writtenBody (servePHPOutput U out) = injectLiveReload U body := by
        rw [hcalls]
        simp only [hc, if_true]
        cases hi : injectLiveReload U body with
        | none => exact writtenBody_headerCalls_fault _ hhc
        | some injected => exact writtenBody_headerCalls_write _ _ hhc
      exact ⟨fun _ => hc, fun _ => hw⟩
    · have hw : writtenBody (servePHPOutput U out) = some body := by
        rw [hcalls]
        simp only [hc, Bool.false_eq_true, if_false]
        exact writtenBody_headerCalls_write _ _ hhc
      refine ⟨fun h => ?_, fun h => absurd h hc⟩
      rw [hw] at h
      exact absurd h.symm hne

/-- The theorem `servePHPOutput_body` at an HTML page with status 200: the snippet is
written before the closing tag of the body. -/
theorem servePHPOutput_body_witness :
    htmlOutput = htmlHeaderBlock ++ crlfcrlf ++ ascii "<body>hi</body>"
      ∧ statusCodesAll validCode asciiOnly (cgiHeaders asciiOnly htmlHeaderBlock) = true
      ∧ writtenBody (servePHPOutput asciiOnly htmlOutput)
          = some (ascii "<body>hi" ++ liveReloadSnippet ++ ascii "</body>") :=
  ⟨htmlOutput_cut.1, by rfl,
   (servePHPOutput_body asciiOnly asciiOnly_names htmlOutput htmlHeaderBlock
      (ascii "<body>hi</body>") htmlOutput_cut.1 htmlOutput_cut.2 (by rfl)).1.trans (by rfl)⟩

/-! ## Missing files -/

/-- C9 (the code departs from the claim on the HTML route): the script route answers 404
for a script that does not exist and 500 for any other `Stat` error; the HTML route answers
500 for a read error, and also 500, not 404, for a file that does not exist.  With no file
under `/srv/www`, `GET /missing.php` is answered 404 and `GET /missing.html` 500. -/
theorem statusOf_missing_file (U : Unicode) (W : World) (r : Request) (fullPath : Bytes) :
    (W.stat fullPath = StatResult.notExist → statusOf (servePHP U W r fullPath) = some 404)
      ∧ (W.stat fullPath = StatResult.otherError →
          statusOf (servePHP U W r fullPath) = some 500)
      ∧ (toLower U (fileExt fullPath) = ascii ".html"
            ∨ toLower U (fileExt fullPath) = ascii ".htm" →
          W.readFile fullPath = ReadResult.otherError →
          statusOf (serveStaticWithInject U W fullPath r) = some 500)
      ∧ (toLower U (fileExt fullPath) = ascii ".html"
            ∨ toLower U (fileExt fullPath) = ascii ".htm" →
          W.readFile fullPath = ReadResult.notExist →
          statusOf (serveStaticWithInject U W fullPath r) = some 500)
      ∧ statusOf (serveFileOrPHP U emptyWorld exampleRoot ⟨ascii "/missing.php"⟩) = some 404
      ∧ statusOf (serveFileOrPHP U emptyWorld exampleRoot ⟨ascii "/missing.html"⟩)
          = some 500 := by
  refine ⟨?_, ?_, ?_, ?_, by rfl, by rfl⟩
  · intro h; simp only [servePHP, h]; rfl
  · intro h; simp only [servePHP, h]; rfl
  · intro hext h
    have hne : ¬ (toLower U (fileExt fullPath) ≠ ascii ".html"
        ∧ toLower U (fileExt fullPath) ≠ ascii ".htm") := by
      rintro ⟨h1, h2⟩; rcases hext with e | e
      · exact h1 e
      · exact h2 e
    simp only [serveStaticWithInject, hne, if_false, h]; rfl
  · intro hext h
    have hne : ¬ (toLower U (fileExt fullPath) ≠ ascii ".html"
        ∧ toLower U (fileExt fullPath) ≠ ascii ".htm") := by
      rintro ⟨h1, h2⟩; rcases hext with e | e
      · exact h1 e
      · exact h2 e
    simp only [serveStaticWithInject, hne, if_false, h]; rfl

/-- The theorem `statusOf_missing_file` at `/srv/www/missing.html` in a world without
files. -/
theorem statusOf_missing_file_witness :
    emptyWorld.readFile (ascii "/srv/www/missing.html") = ReadResult.notExist
      ∧ statusOf (serveStaticWithInject asciiOnly emptyWorld (ascii "/srv/www/missing.html")
            ⟨ascii "/missing.html"⟩) = some 500 :=
  ⟨rfl, (statusOf_missing_file asciiOnly emptyWorld ⟨ascii "/missing.html"⟩
      (ascii "/srv/www/missing.html")).2.2.2.1 (Or.inl (by rfl)) rfl⟩

/-! ## The file watcher -/

/-- A union of operation bits is empty only when both parts are. -/
theorem lor_eq_zero (a b : Nat) : a ||| b = 0 ↔ a = 0 ∧ b = 0 := by
  constructor
  · intro h
    have hbit : ∀ i, a.testBit i = false ∧ b.testBit i = false := by
      intro i
      have := congrArg (fun n => n.testBit i) h
      simpa [Nat.testBit_or] using this
    constructor
    · apply Nat.eq_of_testBit_eq; intro i; simp [(hbit i).1]
    · apply Nat.eq_of_testBit_eq; intro i; simp [(hbit i).2]
  · rintro ⟨rfl, rfl⟩; rfl

/-- The test of the watcher loop on the operation of an event: it holds exactly when the
operation includes write, create, remove or rename. -/
theorem op_mask (op : Nat) :
    op &&& (opWrite ||| opCreate ||| opRemove ||| opRename) ≠ 0
      ↔ (op &&& opWrite ≠ 0 ∨ op &&& opCreate ≠ 0 ∨ op &&& opRemove ≠ 0
          ∨ op &&& opRename ≠ 0) := by
  rw [Nat.and_or_distrib_left, Nat.and_or_distrib_left, Nat.and_or_distrib_left]
  rw [Ne, lor_eq_zero, lor_eq_zero, lor_eq_zero]
  tauto

/-- The calls of `broadcastReload` for one event. -/
theorem broadcastCalls_handleEvent (U : Unicode) (W : World) (ev : FsEvent) :
    broadcastCalls (handleEvent U W ev) = if qualifies U ev then 1 else 0 := by
  have hm := op_mask ev.op
  have hadd : ∀ l : List WatcherAction, (∀ a ∈ l, ∃ d, a = WatcherAction.addWatchRecursive d) →
      ∀ l', broadcastCalls (l ++ l') = broadcastCalls l' := by
    intro l hl l'
    unfold broadcastCalls
    rw [List.count_append]
    have : List.count WatcherAction.broadcastReload l = 0 := by
      apply List.count_eq_zero.mpr
      intro hmem
      obtain ⟨d, hd⟩ := hl _ hmem
      cases hd
    omega
  unfold handleEvent
  rw [hadd]
  · by_cases hop : ev.op &&& (opWrite ||| opCreate ||| opRemove ||| opRename) ≠ 0
    · have hq := hm.mp hop
      by_cases hext : hasWatchedExt U ev.name = true
      · have : qualifies U ev = true := by
          simp only [qualifies, hext, Bool.and_true, Bool.or_eq_true, decide_eq_true_eq]
          tauto
        simp [hop, hext, this, broadcastCalls]
      · have : qualifies U ev = false := by
          simp [qualifies, hext]
        simp [hop, hext, this, broadcastCalls]
    · have hq : ¬ (ev.op &&& opWrite ≠ 0 ∨ ev.op &&& opCreate ≠ 0 ∨ ev.op &&& opRemove ≠ 0
          ∨ ev.op &&& opRename ≠ 0) := fun h => hop (hm.mpr h)
      have : qualifies U ev = false := by
        simp only [qualifies, Bool.and_eq_false_imp, Bool.or_eq_true, decide_eq_true_eq]
        intro h; exact absurd (by tauto) hq
      simp [hop, this, broadcastCalls]
  · intro a ha
    split at ha
    · split at ha
      · exact ⟨_, List.mem_singleton.mp ha⟩
      · simp at ha
    · simp at ha

/-- C10: for every event the watcher loop handles, `broadcastReload` is called exactly once
when the operation includes write, create, remove or rename and `hasWatchedExt` holds of the
path, and not at all otherwise; so the events of a sequence yield as many calls as there are
qualifying events among them, and a burst of N qualifying events yields N calls.  For an
ASCII extension `hasWatchedExt` holds exactly when the extension, letter case aside, is one
of `.php`, `.html`, `.css`, `.js`. -/
theorem watcherLoop_broadcasts (U : Unicode) (W : World) (ev : FsEvent) (evs : List FsEvent) :
    ((ev.op &&& opWrite ≠ 0 ∨ ev.op &&& opCreate ≠ 0 ∨ ev.op &&& opRemove ≠ 0
          ∨ ev.op &&& opRename ≠ 0) ∧ hasWatchedExt U ev.name = true →
        broadcastCalls (handleEvent U W ev) = 1)
      ∧ (¬ ((ev.op &&& opWrite ≠ 0 ∨ ev.op &&& opCreate ≠ 0 ∨ ev.op &&& opRemove ≠ 0
          ∨ ev.op &&& opRename ≠ 0) ∧ hasWatchedExt U ev.name = true) →
        broadcastCalls (handleEvent U W ev) = 0)
      ∧ broadcastCalls (watcherLoop U W (evs.map WatcherInput.event))
          = (evs.filter (qualifies U)).length
      ∧ ((∀ e ∈ evs, qualifies U e = true) →
          broadcastCalls (watcherLoop U W (evs.map WatcherInput.event)) = evs.length)
      ∧ ((∀ c ∈ fileExt ev.name, c < 0x80) →
          (hasWatchedExt U ev.name = true ↔
            (fileExt ev.name).map asciiLower
              ∈ [ascii ".php", ascii ".html", ascii ".css", ascii ".js"])) := by
  have hq : qualifies U ev = true ↔
      ((ev.op &&& opWrite ≠ 0 ∨ ev.op &&& opCreate ≠ 0 ∨ ev.op &&& opRemove ≠ 0
          ∨ ev.op &&& opRename ≠ 0) ∧ hasWatchedExt U ev.name = true) := by
    simp only [qualifies, Bool.and_eq_true, Bool.or_eq_true, decide_eq_true_eq]
    tauto
  have hloop : ∀ l : List FsEvent,
      broadcastCalls (watcherLoop U W (l.map WatcherInput.event))
        = (l.filter (qualifies U)).length := by
    intro l
    induction l with
    | nil => rfl
    | cons e rest ih =>
      simp only [List.map_cons, watcherLoop]
      have happ : broadcastCalls (handleEvent U W e
            ++ watcherLoop U W (rest.map WatcherInput.event))
          = broadcastCalls (handleEvent U W e)
            + broadcastCalls (watcherLoop U W (rest.map WatcherInput.event)) := by
        unfold broadcastCalls; rw [List.count_append]
      rw [happ, ih, broadcastCalls_handleEvent]
      by_cases hqe : qualifies U e = true
      · simp [hqe, List.filter_cons]; omega
      · simp [hqe, List.filter_cons]
  refine ⟨?_, ?_, hloop evs, ?_, ?_⟩
  · intro h
    rw [broadcastCalls_handleEvent, if_pos (hq.mpr h)]
  · intro h
    have : ¬ qualifies U ev = true := fun hh => h (hq.mp hh)
    rw [broadcastCalls_handleEvent, if_neg this]
  · intro hall
    rw [hloop, List.filter_eq_self.mpr hall]
  · intro hascii
    unfold hasWatchedExt
    rw [toLower_of_ascii U _ hascii]
    simp

/-- The theorem `watcherLoop_broadcasts` at a write to `/srv/www/style.css`. -/
theorem watcherLoop_broadcasts_witness :
    broadcastCalls (handleEvent asciiOnly emptyWorld ⟨ascii "/srv/www/style.css", opWrite⟩)
      = 1 :=
  (watcherLoop_broadcasts asciiOnly emptyWorld ⟨ascii "/srv/www/style.css", opWrite⟩ []).1
    ⟨Or.inl (by decide), by rfl⟩

/-! ## The notification hub -/

/-- What one `trySend` leaves alone. -/
theorem trySend_frame (h : Hub) (ch : Nat) :
    (trySend h ch).next = h.next ∧ (trySend h ch).phase = h.phase
      ∧ (trySend h ch).clients = h.clients
      ∧ (trySend h ch).attempts = h.attempts ++ [ch]
      ∧ (∀ c, ((trySend h ch).chan c).closed = (h.chan c).closed)
      ∧ (∀ c, ((trySend h ch).chan c).cap = (h.chan c).cap)
      ∧ (∀ c, c ≠ ch → (trySend h ch).chan c = h.chan c)
      ∧ ((h.chan ch).closed = false → (trySend h ch).sentOnClosed = h.sentOnClosed)
      ∧ (trySend h ch).pass = h.pass := by
  have hupd : ∀ (c1 : Chan), c1.closed = (h.chan ch).closed → c1.cap = (h.chan ch).cap →
      (∀ c, ((Function.update h.chan ch c1) c).closed = (h.chan c).closed)
        ∧ (∀ c, ((Function.update h.chan ch c1) c).cap = (h.chan c).cap)
        ∧ (∀ c, c ≠ ch → (Function.update h.chan ch c1) c = h.chan c) := by
    intro c1 h1 h2
    refine ⟨?_, ?_, ?_⟩
    · intro c; by_cases e : c = ch
      · subst e; rw [Function.update_same]; exact h1
      · rw [Function.update_noteq e]
    · intro c; by_cases e : c = ch
      · subst e; rw [Function.update_same]; exact h2
      · rw [Function.update_noteq e]
    · intro c e; rw [Function.update_noteq e]
  by_cases hc : (h.chan ch).closed = true
  · have e : trySend h ch = ⟨h.next, h.chan, h.phase, h.clients, h.attempts ++ [ch],
        h.sentOnClosed ++ [ch], h.pass⟩ := by
      unfold trySend; simp [hc]
    rw [e]
    exact ⟨rfl, rfl, rfl, rfl, fun _ => rfl, fun _ => rfl, fun _ _ => rfl,
      fun hf => (by rw [hc] at hf; cases hf), rfl⟩
  · by_cases hw : (h.chan ch).waiting = true
    · have e : trySend h ch = ⟨h.next, Function.update h.chan ch
            ({ h.chan ch with waiting := false, received := (h.chan ch).received + 1 }),
          h.phase, h.clients, h.attempts ++ [ch], h.sentOnClosed, h.pass⟩ := by
        unfold trySend; simp [hc, hw]
      rw [e]
      obtain ⟨u1, u2, u3⟩ := hupd
        ({ h.chan ch with waiting := false, received := (h.chan ch).received + 1 }) rfl rfl
      exact ⟨rfl, rfl, rfl, rfl, u1, u2, u3, fun _ => rfl, rfl⟩
    · by_cases hp : (h.chan ch).pending < (h.chan ch).cap
      · have e : trySend h ch = ⟨h.next, Function.update h.chan ch
              ({ h.chan ch with pending := (h.chan ch).pending + 1 }),
            h.phase, h.clients, h.attempts ++ [ch], h.sentOnClosed, h.pass⟩ := by
          unfold trySend; simp [hc, hw, hp]
        rw [e]
        obtain ⟨u1, u2, u3⟩ := hupd
          ({ h.chan ch with pending := (h.chan ch).pending + 1 }) rfl rfl
        exact ⟨rfl, rfl, rfl, rfl, u1, u2, u3, fun _ => rfl, rfl⟩
      · have e : trySend h ch = ⟨h.next, h.chan, h.phase, h.clients, h.attempts ++ [ch],
            h.sentOnClosed, h.pass⟩ := by
          unfold trySend; simp [hc, hw, hp]
        rw [e]
        exact ⟨rfl, rfl, rfl, rfl, fun _ => rfl, fun _ => rfl, fun _ _ => rfl, fun _ => rfl,
          rfl⟩

/-- What a pass of sends over channels that are not closed leaves alone. -/
theorem foldl_trySend_frame (l : List Nat) : ∀ h : Hub,
    (∀ ch ∈ l, (h.chan ch).closed = false) →
    (l.foldl trySend h).next = h.next ∧ (l.foldl trySend h).phase = h.phase
      ∧ (l.foldl trySend h).clients = h.clients
      ∧ (l.foldl trySend h).attempts = h.attempts ++ l
      ∧ (∀ c, ((l.foldl trySend h).chan c).closed = (h.chan c).closed)
      ∧ (l.foldl trySend h).sentOnClosed = h.sentOnClosed := by
  induction l with
  | nil => intro h _; simp
  | cons a rest ih =>
    intro h hl
    obtain ⟨f1, f2, f3, f4, f5, _, _, f8, _⟩ := trySend_frame h a
    have ha : (h.chan a).closed = false := hl a (List.mem_cons_self _ _)
    have hrest : ∀ ch ∈ rest, ((trySend h a).chan ch).closed = false := by
      intro ch hch
      rw [f5]; exact hl ch (List.mem_cons_of_mem _ hch)
    obtain ⟨g1, g2, g3, g4, g5, g6⟩ := ih (trySend h a) hrest
    rw [List.foldl_cons]
    refine ⟨g1.trans f1, g2.trans f2, g3.trans f3, ?_, ?_, g6.trans (f8 ha)⟩
    · rw [g4, f4]; simp
    · intro c; rw [g5, f5]

/-- The lock state does not matter to a send. -/
theorem trySend_pass (h : Hub) (p : Option (List Nat)) (ch : Nat) :
    trySend { h with pass := p } ch = { trySend h ch with pass := p } := by
  unfold trySend
  by_cases hc : (h.chan ch).closed = true
  · simp [hc]
  · by_cases hw : (h.chan ch).waiting = true
    · simp [hc, hw]
    · by_cases hp : (h.chan ch).pending < (h.chan ch).cap
      · simp [hc, hw, hp]
      · simp [hc, hw, hp]

/-- The lock state does not matter to a pass of sends. -/
theorem foldl_trySend_pass (l : List Nat) : ∀ (h : Hub) (p : Option (List Nat)),
    l.foldl trySend { h with pass := p } = { l.foldl trySend h with pass := p } := by
  induction l with
  | nil => intro h p; rfl
  | cons a rest ih =>
    intro h p
    rw [List.foldl_cons, List.foldl_cons, trySend_pass, ih]

/-- A send leaves the lock state alone. -/
theorem foldl_trySend_pass_eq (l : List Nat) : ∀ h : Hub, (l.foldl trySend h).pass = h.pass := by
  induction l with
  | nil => intro h; rfl
  | cons a rest ih =>
    intro h
    rw [List.foldl_cons, ih, (trySend_frame h a).2.2.2.2.2.2.2.2]

/-- The steps of a running broadcast, taken without interruption, make the sends that are
left and release the lock. -/
theorem broadcastNext_steps (l : List Nat) : ∀ h : Hub, h.pass = some l →
    (List.replicate (l.length + 1) HubEvent.broadcastNext).foldl hubStep h
      = { l.foldl trySend h with pass := none } := by
  induction l with
  | nil =>
    intro h hp
    simp [hubStep, hp]
  | cons ch rest ih =>
    intro h hp
    rw [List.length_cons, List.replicate_succ, List.foldl_cons]
    have hstep : hubStep h HubEvent.broadcastNext = { trySend h ch with pass := some rest } := by
      simp [hubStep, hp]
    rw [hstep, ih _ rfl, foldl_trySend_pass, List.foldl_cons]

/-- A call of `broadcastReload` that no other step interrupts is the function
`broadcastReload`. -/
theorem broadcast_steps (h : Hub) (hp : h.pass = none) :
    (List.replicate (h.clients.length + 1) HubEvent.broadcastNext).foldl hubStep
        (hubStep h HubEvent.broadcastBegin)
      = broadcastReload h := by
  have hbegin : hubStep h HubEvent.broadcastBegin = { h with pass := some h.clients } := by
    simp [hubStep, hp]
  rw [hbegin, broadcastNext_steps h.clients _ rfl, foldl_trySend_pass]
  unfold broadcastReload
  have := foldl_trySend_pass_eq h.clients h
  rw [hp] at this
  cases hf : h.clients.foldl trySend h with
  | mk n c ph cl ats soc ps =>
    rw [hf] at this
    simp only at this
    subst this
    rfl

/-- In a state of the invariant no registered channel is closed. -/
theorem HubInv.open_of_mem {h : Hub} (hi : HubInv h) (ch : Nat) (hm : ch ∈ h.clients) :
    (h.chan ch).closed = false := by
  cases hc : (h.chan ch).closed with
  | false => rfl
  | true =>
    have h1 := hi.1 ch hm
    have h2 := hi.2.1 ch hc
    rw [h1] at h2
    cases h2

/-- Every step keeps the invariant of the hub. -/
theorem hubStep_inv (h : Hub) (e : HubEvent) (hi : HubInv h) : HubInv (hubStep h e) := by
  obtain ⟨ha, hb, hc, hd, hp⟩ := hi
  cases e with
  | subscribe =>
    simp only [hubStep]
    by_cases hl : h.pass = none
    · simp only [hl, if_true]
      refine ⟨?_, ?_, hc, ?_, ?_⟩
      · intro ch hm
        simp only [subscribe, List.mem_cons] at hm ⊢
        by_cases e : ch = h.next
        · subst e; simp
        · rw [Function.update_noteq e]
          rcases hm with h1 | h1
          · exact absurd h1 e
          · exact ha ch h1
      · intro ch hcl
        simp only [subscribe] at hcl ⊢
        by_cases e : ch = h.next
        · subst e; simp [newChan] at hcl
        · rw [Function.update_noteq e] at hcl ⊢
          exact hb ch hcl
      · intro ch hle
        simp only [subscribe] at hle ⊢
        have e : ch ≠ h.next := by omega
        rw [Function.update_noteq e]
        exact hd ch (by omega)
      · intro l hl'
        simp only [subscribe, hl] at hl'
        cases hl'
    · simp only [hl, if_false]
      exact ⟨ha, hb, hc, hd, hp⟩
  | await ch0 =>
    simp only [hubStep, awaitSignal]
    by_cases hs : h.phase ch0 = Phase.serving
    · simp only [hs, if_true]
      by_cases hpd : 0 < (h.chan ch0).pending
      · simp only [hpd, if_true]
        refine ⟨ha, ?_, hc, hd, hp⟩
        intro ch hcl
        by_cases e : ch = ch0
        · subst e; simp at hcl; exact hb ch hcl
        · simp only [Function.update_noteq e] at hcl; exact hb ch hcl
      · simp only [hpd, if_false]
        refine ⟨ha, ?_, hc, hd, hp⟩
        intro ch hcl
        by_cases e : ch = ch0
        · subst e; simp at hcl; exact hb ch hcl
        · simp only [Function.update_noteq e] at hcl; exact hb ch hcl
    · simp only [hs, if_false]
      exact ⟨ha, hb, hc, hd, hp⟩
  | unsubscribeDelete ch0 =>
    simp only [hubStep]
    by_cases hl : h.pass = none
    · simp only [hl, if_true, unsubscribeDelete]
      by_cases hs : h.phase ch0 = Phase.serving
      · simp only [hs, if_true]
        refine ⟨?_, ?_, hc, ?_, ?_⟩
        · intro ch hm
          simp only [List.mem_filter, decide_eq_true_eq] at hm
          simp only [Function.update_noteq hm.2]
          exact ha ch hm.1
        · intro ch hcl
          by_cases e : ch = ch0
          · subst e
            simp at hcl
            have := hb ch hcl
            rw [hs] at this; cases this
          · simp only [Function.update_noteq e] at hcl ⊢
            exact hb ch hcl
        · intro ch hle
          by_cases e : ch = ch0
          · subst e
            have := hd ch hle
            rw [hs] at this; cases this
          · simp only [Function.update_noteq e]
            exact hd ch hle
        · intro l hl'
          simp only [hl] at hl'
          cases hl'
      · simp only [hs, if_false]
        exact ⟨ha, hb, hc, hd, hp⟩
    · simp only [hl, if_false]
      exact ⟨ha, hb, hc, hd, hp⟩
  | unsubscribeClose ch0 =>
    simp only [hubStep, unsubscribeClose]
    by_cases hs : h.phase ch0 = Phase.removed
    · simp only [hs, if_true]
      refine ⟨?_, ?_, hc, ?_, hp⟩
      · intro ch hm
        have h1 := ha ch hm
        have e : ch ≠ ch0 := by
          intro e; subst e; rw [hs] at h1; cases h1
        simp only [Function.update_noteq e]
        exact h1
      · intro ch hcl
        by_cases e : ch = ch0
        · subst e; simp
        · simp only [Function.update_noteq e] at hcl ⊢
          exact hb ch hcl
      · intro ch hle
        by_cases e : ch = ch0
        · subst e
          have := hd ch hle
          rw [hs] at this; cases this
        · simp only [Function.update_noteq e]
          exact hd ch hle
    · simp only [hs, if_false]
      exact ⟨ha, hb, hc, hd, hp⟩
  | broadcastBegin =>
    simp only [hubStep]
    by_cases hl : h.pass = none
    · simp only [hl, if_true]
      refine ⟨ha, hb, hc, hd, ?_⟩
      intro l hl' ch hm
      simp only [Option.some.injEq] at hl'
      subst hl'
      exact hm
    · simp only [hl, if_false]
      exact ⟨ha, hb, hc, hd, hp⟩
  | broadcastNext =>
    simp only [hubStep]
    cases hl : h.pass with
    | none => exact ⟨ha, hb, hc, hd, hp⟩
    | some l =>
      cases l with
      | nil =>
        refine ⟨ha, hb, hc, hd, ?_⟩
        intro l hl'
        cases hl'
      | cons ch rest =>
        have hmem : ch ∈ h.clients := hp _ hl ch (List.mem_cons_self _ _)
        have hopen : (h.chan ch).closed = false :=
          HubInv.open_of_mem ⟨ha, hb, hc, hd, hp⟩ ch hmem
        obtain ⟨_, f2, f3, _, f5, _, _, f8, _⟩ := trySend_frame h ch
        refine ⟨?_, ?_, ?_, ?_, ?_⟩
        · intro c hm
          simp only at hm ⊢
          rw [f2]; rw [f3] at hm; exact ha c hm
        · intro c hcl
          simp only at hcl ⊢
          rw [f2]; rw [f5] at hcl; exact hb c hcl
        · simp only
          rw [f8 hopen]; exact hc
        · intro c hle
          simp only at hle ⊢
          rw [f2]
          apply hd c
          rw [(trySend_frame h ch).1] at hle
          exact hle
        · intro l hl' c hm
          simp only [Option.some.injEq] at hl' ⊢
          subst hl'
          rw [f3]
          exact hp _ hl c (List.mem_cons_of_mem _ hm)

/-- Every state the hub reaches satisfies the invariant. -/
theorem hubRun_inv (evs : List HubEvent) : HubInv (hubRun evs) := by
  have hgen : ∀ (l : List HubEvent) (h : Hub), HubInv h → HubInv (l.foldl hubStep h) := by
    intro l
    induction l with
    | nil => intro h hi; exact hi
    | cons e rest ih => intro h hi; exact ih _ (hubStep_inv h e hi)
  apply hgen
  refine ⟨?_, ?_, rfl, ?_, ?_⟩
  · intro ch hm; simp [emptyHub] at hm
  · intro ch hcl; simp [emptyHub, newChan] at hcl
  · intro ch _; rfl
  · intro l hl; simp [emptyHub] at hl

/-- A handler that has unsubscribed stays so. -/
theorem gone_stable (h : Hub) (e : HubEvent) (hi : HubInv h) (ch : Nat)
    (hg : h.phase ch = Phase.removed ∨ h.phase ch = Phase.finished) :
    (hubStep h e).phase ch = Phase.removed ∨ (hubStep h e).phase ch = Phase.finished := by
  obtain ⟨_, _, _, hd, _⟩ := hi
  cases e with
  | subscribe =>
    simp only [hubStep]
    by_cases hl : h.pass = none
    · simp only [hl, if_true, subscribe]
      have hne : ch ≠ h.next := by
        intro e
        have := hd ch (by omega)
        rcases hg with h1 | h1 <;> · rw [this] at h1; cases h1
      rw [Function.update_noteq hne]
      exact hg
    · simp only [hl, if_false]; exact hg
  | await ch0 =>
    simp only [hubStep, awaitSignal]
    by_cases hs : h.phase ch0 = Phase.serving
    · simp only [hs, if_true]
      by_cases hpd : 0 < (h.chan ch0).pending
      · simp only [hpd, if_true]; exact hg
      · simp only [hpd, if_false]; exact hg
    · simp only [hs, if_false]; exact hg
  | unsubscribeDelete ch0 =>
    simp only [hubStep]
    by_cases hl : h.pass = none
    · simp only [hl, if_true, unsubscribeDelete]
      by_cases hs : h.phase ch0 = Phase.serving
      · simp only [hs, if_true]
        by_cases e : ch = ch0
        · subst e; left; simp
        · rw [Function.update_noteq e]; exact hg
      · simp only [hs, if_false]; exact hg
    · simp only [hl, if_false]; exact hg
  | unsubscribeClose ch0 =>
    simp only [hubStep, unsubscribeClose]
    by_cases hs : h.phase ch0 = Phase.removed
    · simp only [hs, if_true]
      by_cases e : ch = ch0
      · subst e; right; simp
      · rw [Function.update_noteq e]; exact hg
    · simp only [hs, if_false]; exact hg
  | broadcastBegin =>
    simp only [hubStep]
    by_cases hl : h.pass = none
    · simp only [hl, if_true]; exact hg
    · simp only [hl, if_false]; exact hg
  | broadcastNext =>
    simp only [hubStep]
    cases hl : h.pass with
    | none => exact hg
    | some l =>
      cases l with
      | nil => exact hg
      | cons c rest =>
        simp only
        rw [(trySend_frame h c).2.1]
        exact hg

/-- A step attempts sends only on channels whose handler is serving. -/
theorem attempts_step (h : Hub) (e : HubEvent) (hi : HubInv h) :
    ∃ extra, (hubStep h e).attempts = h.attempts ++ extra
      ∧ ∀ c ∈ extra, h.phase c = Phase.serving := by
  obtain ⟨ha, _, _, _, hp⟩ := hi
  have hsame : ∀ h' : Hub, h'.attempts = h.attempts →
      ∃ extra, h'.attempts = h.attempts ++ extra ∧ ∀ c ∈ extra, h.phase c = Phase.serving :=
    fun h' he => ⟨[], by simpa using he, by intro c hc; simp at hc⟩
  cases e with
  | subscribe =>
    apply hsame
    simp only [hubStep]
    by_cases hl : h.pass = none
    · simp only [hl, if_true, subscribe]
    · simp only [hl, if_false]
  | await ch0 =>
    apply hsame
    simp only [hubStep, awaitSignal]
    by_cases hs : h.phase ch0 = Phase.serving
    · simp only [hs, if_true]
      by_cases hpd : 0 < (h.chan ch0).pending
      · simp only [hpd, if_true]
      · simp only [hpd, if_false]
    · simp only [hs, if_false]
  | unsubscribeDelete ch0 =>
    apply hsame
    simp only [hubStep]
    by_cases hl : h.pass = none
    · simp only [hl, if_true, unsubscribeDelete]
      by_cases hs : h.phase ch0 = Phase.serving
      · simp only [hs, if_true]
      · simp only [hs, if_false]
    · simp only [hl, if_false]
  | unsubscribeClose ch0 =>
    apply hsame
    simp only [hubStep, unsubscribeClose]
    by_cases hs : h.phase ch0 = Phase.removed
    · simp only [hs, if_true]
    · simp only [hs, if_false]
  | broadcastBegin =>
    apply hsame
    simp only [hubStep]
    by_cases hl : h.pass = none
    · simp only [hl, if_true]
    · simp only [hl, if_false]
  | broadcastNext =>
    simp only [hubStep]
    cases hl : h.pass with
    | none => exact hsame h rfl
    | some l =>
      cases l with
      | nil => exact hsame _ rfl
      | cons c rest =>
        refine ⟨[c], ?_, ?_⟩
        · simp only
          exact (trySend_frame h c).2.2.2.1
        · intro c' hc'
          rw [List.mem_singleton.mp hc']
          exact ha c (hp _ hl c (List.mem_cons_self _ _))

/-- After a handler has unsubscribed, no step of any later run attempts a send on its
channel. -/
theorem attempts_after_gone (post : List HubEvent) : ∀ (h : Hub), HubInv h → ∀ ch : Nat,
    (h.phase ch = Phase.removed ∨ h.phase ch = Phase.finished) →
    ∃ extra, (post.foldl hubStep h).attempts = h.attempts ++ extra ∧ ch ∉ extra := by
  induction post with
  | nil => intro h _ ch _; exact ⟨[], by simp, by simp⟩
  | cons e rest ih =>
    intro h hi ch hg
    obtain ⟨x1, hx1, hserv⟩ := attempts_step h e hi
    obtain ⟨x2, hx2, hnot⟩ := ih (hubStep h e) (hubStep_inv h e hi) ch (gone_stable h e hi ch hg)
    refine ⟨x1 ++ x2, ?_, ?_⟩
    · rw [List.foldl_cons, hx2, hx1, List.append_assoc]
    · intro hm
      rcases List.mem_append.mp hm with h1 | h1
      · have := hserv ch h1
        rcases hg with h2 | h2 <;> · rw [this] at h2; cases h2
      · exact hnot h1

/-- C6: in every state the hub reaches, no send has been attempted on a closed channel; the
registered channels belong to handlers that are serving and are not closed; a closed channel
has been removed from the set before; a channel whose handler has unsubscribed is neither
registered nor among the channels a running broadcast will still send to, which are all
registered, served and open; a call of `broadcastReload` sends on the registered channels
and on no other; and once a handler has unsubscribed, no later step of any run attempts a
send on its channel. -/
theorem no_send_after_unsubscribe (evs : List HubEvent) :
    (hubRun evs).sentOnClosed = []
      ∧ (∀ ch ∈ (hubRun evs).clients,
          (hubRun evs).phase ch = Phase.serving ∧ ((hubRun evs).chan ch).closed = false)
      ∧ (∀ ch, ((hubRun evs).chan ch).closed = true →
          (hubRun evs).phase ch = Phase.finished ∧ ch ∉ (hubRun evs).clients)
      ∧ (∀ l, (hubRun evs).pass = some l → ∀ ch ∈ l,
          ch ∈ (hubRun evs).clients ∧ (hubRun evs).phase ch = Phase.serving
            ∧ ((hubRun evs).chan ch).closed = false)
      ∧ (∀ ch, (hubRun evs).phase ch = Phase.removed ∨ (hubRun evs).phase ch = Phase.finished →
          ch ∉ (hubRun evs).clients ∧ ∀ l, (hubRun evs).pass = some l → ch ∉ l)
      ∧ (broadcastReload (hubRun evs)).attempts
          = (hubRun evs).attempts ++ (hubRun evs).clients
      ∧ (broadcastReload (hubRun evs)).sentOnClosed = []
      ∧ (∀ (post : List HubEvent) (ch : Nat),
          ((hubRun evs).phase ch = Phase.removed ∨ (hubRun evs).phase ch = Phase.finished) →
          ∃ extra, (hubRun (evs ++ post)).attempts = (hubRun evs).attempts ++ extra
            ∧ ch ∉ extra) := by
  have hi := hubRun_inv evs
  have hopen : ∀ ch ∈ (hubRun evs).clients, ((hubRun evs).chan ch).closed = false :=
    fun ch hm => hi.open_of_mem ch hm
  obtain ⟨_, _, _, g4, _, g6⟩ := foldl_trySend_frame (hubRun evs).clients (hubRun evs) hopen
  have hgone : ∀ ch, (hubRun evs).phase ch = Phase.removed
      ∨ (hubRun evs).phase ch = Phase.finished → ch ∉ (hubRun evs).clients := by
    intro ch hph hm
    have := hi.1 ch hm
    rcases hph with h1 | h1 <;> · rw [this] at h1; cases h1
  refine ⟨hi.2.2.1, ?_, ?_, ?_, ?_, g4, ?_, ?_⟩
  rotate_left 5
  · intro post ch hg
    have hrun : hubRun (evs ++ post) = post.foldl hubStep (hubRun evs) := by
      simp [hubRun, List.foldl_append]
    rw [hrun]
    exact attempts_after_gone post (hubRun evs) hi ch hg
  · intro ch hm; exact ⟨hi.1 ch hm, hopen ch hm⟩
  · intro ch hcl
    refine ⟨hi.2.1 ch hcl, fun hm => ?_⟩
    have := hopen ch hm
    rw [hcl] at this; cases this
  · intro l hl ch hm
    have hmem := hi.2.2.2.2 l hl ch hm
    exact ⟨hmem, hi.1 ch hmem, hopen ch hmem⟩
  · intro ch hph
    exact ⟨hgone ch hph, fun l hl hm => hgone ch hph (hi.2.2.2.2 l hl ch hm)⟩
  · unfold broadcastReload; rw [g6]; exact hi.2.2.1

/-- The theorem `no_send_after_unsubscribe` at a run in which the first of two handlers has
unsubscribed before a broadcast: its channel is closed, it is not registered, and the
broadcast has sent on the other channel only. -/
theorem no_send_after_unsubscribe_witness :
    ((hubRun exampleRun).chan 0).closed = true
      ∧ ((hubRun exampleRun).phase 0 = Phase.finished ∧ 0 ∉ (hubRun exampleRun).clients)
      ∧ (hubRun exampleRun).attempts = [1]
      ∧ (hubRun exampleRun).sentOnClosed = [] :=
  ⟨by decide, (no_send_after_unsubscribe exampleRun).2.2.1 0 (by decide), by decide,
   (no_send_after_unsubscribe exampleRun).1⟩

/-- A send on an open channel without buffer: the signal is handed to a waiting owner and
given up otherwise. -/
theorem trySend_unbuffered (h : Hub) (a : Nat)
    (hcap : (h.chan a).cap = 0) (hopen : (h.chan a).closed = false) :
    (trySend h a).chan =
      if (h.chan a).waiting = true then
        Function.update h.chan a
          ({ h.chan a with waiting := false, received := (h.chan a).received + 1 })
      else h.chan := by
  unfold trySend
  by_cases hw : (h.chan a).waiting = true
  · simp [hopen, hw]
  · simp [hopen, hw, hcap]

/-- A pass of sends over distinct open channels without buffer: each waiting owner receives
one signal, nothing else changes. -/
theorem foldl_trySend_unbuffered (l : List Nat) : ∀ h : Hub, l.Nodup →
    (∀ ch, (h.chan ch).cap = 0 ∧ (h.chan ch).closed = false) →
    ∀ ch, (l.foldl trySend h).chan ch =
      if ch ∈ l ∧ (h.chan ch).waiting = true then
        { h.chan ch with waiting := false, received := (h.chan ch).received + 1 }
      else h.chan ch := by
  induction l with
  | nil => intro h _ _ ch; simp
  | cons a rest ih =>
    intro h hnd hok ch
    obtain ⟨ha, hrest⟩ := List.nodup_cons.mp hnd
    obtain ⟨_, _, _, _, f5, f6, f7, _, _⟩ := trySend_frame h a
    have hok' : ∀ c, ((trySend h a).chan c).cap = 0 ∧ ((trySend h a).chan c).closed = false :=
      fun c => ⟨(f6 c).trans (hok c).1, (f5 c).trans (hok c).2⟩
    rw [List.foldl_cons, ih (trySend h a) hrest hok' ch]
    by_cases e : ch = a
    · subst e
      have hsend := trySend_unbuffered h ch (hok ch).1 (hok ch).2
      by_cases hw : (h.chan ch).waiting = true
      · simp [ha, hw, hsend]
      · simp [ha, hw, hsend]
    · rw [f7 ch e]
      simp [e]

/-- Registrations and handlers reaching their `select` keep the invariant of the
registration phase. -/
theorem setup_inv (evs : List HubEvent) (hsetup : ∀ e ∈ evs, e.isSetup = true) :
    SetupInv (hubRun evs) := by
  have hgen : ∀ (l : List HubEvent) (h : Hub), (∀ e ∈ l, e.isSetup = true) → SetupInv h →
      SetupInv (l.foldl hubStep h) := by
    intro l
    induction l with
    | nil => intro h _ hi; exact hi
    | cons e rest ih =>
      intro h hl hi
      rw [List.foldl_cons]
      apply ih _ (fun e' he' => hl e' (List.mem_cons_of_mem _ he'))
      obtain ⟨hpass, hnd, hlt, hch⟩ := hi
      have he := hl e (List.mem_cons_self _ _)
      cases e with
      | subscribe =>
        simp only [hubStep, hpass, if_true]
        refine ⟨hpass, ?_, ?_, ?_⟩
        · simp only [subscribe]
          apply List.nodup_cons.mpr
          refine ⟨fun hm => ?_, hnd⟩
          have := hlt _ hm
          omega
        · intro ch hm
          simp only [subscribe, List.mem_cons] at hm ⊢
          rcases hm with h1 | h1
          · omega
          · have := hlt ch h1; omega
        · intro ch
          simp only [subscribe]
          by_cases e : ch = h.next
          · subst e; simp [newChan]
          · rw [Function.update_noteq e]; exact hch ch
      | await ch0 =>
        simp only [hubStep, awaitSignal]
        by_cases hs : h.phase ch0 = Phase.serving
        · have hp : ¬ 0 < (h.chan ch0).pending := by
            rw [(hch ch0).2.1]; omega
          simp only [hs, if_true, hp, if_false]
          refine ⟨hpass, hnd, hlt, ?_⟩
          intro ch
          by_cases e : ch = ch0
          · subst e; simpa using hch ch
          · simp only [Function.update_noteq e]; exact hch ch
        · simp only [hs, if_false]
          exact ⟨hpass, hnd, hlt, hch⟩
      | unsubscribeDelete ch0 => simp [HubEvent.isSetup] at he
      | unsubscribeClose ch0 => simp [HubEvent.isSetup] at he
      | broadcastBegin => simp [HubEvent.isSetup] at he
      | broadcastNext => simp [HubEvent.isSetup] at he
  apply hgen evs emptyHub hsetup
  refine ⟨rfl, by simp [emptyHub], ?_, ?_⟩
  · intro ch hm; simp [emptyHub] at hm
  · intro ch; simp [emptyHub, newChan]

/-- C5, the claim as stated, fails: a subscriber that has registered but not yet reached its
`select` holds no signal, and after one broadcast it still has received none and holds none;
the channel has capacity 0, and draining it afterwards yields nothing. -/
theorem broadcast_before_select_is_lost :
    (hubRun [HubEvent.subscribe]).clients = [0]
      ∧ ((hubRun [HubEvent.subscribe]).chan 0).pending = 0
      ∧ ((hubRun [HubEvent.subscribe]).chan 0).cap = 0
      ∧ ((broadcastReload (hubRun [HubEvent.subscribe])).chan 0).received = 0
      ∧ ((broadcastReload (hubRun [HubEvent.subscribe])).chan 0).pending = 0
      ∧ ((awaitSignal (broadcastReload (hubRun [HubEvent.subscribe])) 0).chan 0).received
          = 0 := by
  decide

/-- C5, amended: the channel of a subscription has no buffer.  After any sequence of
registrations, in which some handlers have reached their `select`, one broadcast hands
exactly one signal to every registered subscriber that is waiting in its `select` and none
to a subscriber that is not; no signal is held in any channel. -/
theorem broadcast_after_subscribes (evs : List HubEvent)
    (hsetup : ∀ e ∈ evs, e.isSetup = true) (ch : Nat) (hm : ch ∈ (hubRun evs).clients) :
    ((broadcastReload (hubRun evs)).chan ch).cap = 0
      ∧ ((broadcastReload (hubRun evs)).chan ch).pending = 0
      ∧ ((broadcastReload (hubRun evs)).chan ch).received
          = (if ((hubRun evs).chan ch).waiting = true then 1 else 0) := by
  obtain ⟨_, hnd, _, hch⟩ := setup_inv evs hsetup
  have hsend := foldl_trySend_unbuffered (hubRun evs).clients (hubRun evs) hnd
    (fun c => ⟨(hch c).1, (hch c).2.2.1⟩) ch
  unfold broadcastReload
  rw [hsend]
  by_cases hw : ((hubRun evs).chan ch).waiting = true
  · simp [hm, hw, (hch ch).1, (hch ch).2.1, (hch ch).2.2.2]
  · simp [hw, (hch ch).1, (hch ch).2.1, (hch ch).2.2.2]

/-- The theorem `broadcast_after_subscribes` after two registrations, the first handler
waiting in its `select`: it receives one signal, the second none. -/
theorem broadcast_after_subscribes_witness :
    ((broadcastReload
        (hubRun [HubEvent.subscribe, HubEvent.await 0, HubEvent.subscribe])).chan 0).received
        = 1
      ∧ ((broadcastReload
        (hubRun [HubEvent.subscribe, HubEvent.await 0, HubEvent.subscribe])).chan 1).received
        = 0 :=
  ⟨(broadcast_after_subscribes [HubEvent.subscribe, HubEvent.await 0, HubEvent.subscribe]
      (by decide) 0 (by decide)).2.2,
   (broadcast_after_subscribes [HubEvent.subscribe, HubEvent.await 0, HubEvent.subscribe]
      (by decide) 1 (by decide)).2.2⟩

/-! ## Paths -/

/-- Splitting a path at a separator splits its elements. -/
theorem splitOn_append_cons (a b : Bytes) :
    (a ++ slash :: b).splitOn slash = a.splitOn slash ++ b.splitOn slash := by
  induction a with
  | nil =>
    simp only [List.nil_append, List.splitOn, List.splitOnP_cons, List.splitOnP_nil]
    simp
  | cons c a ih =>
    simp only [List.splitOn] at ih ⊢
    rw [List.cons_append, List.splitOnP_cons, List.splitOnP_cons, ih]
    by_cases hc : (c == slash) = true
    · simp [hc]
    · simp only [hc, Bool.false_eq_true, if_false]
      cases hs : List.splitOnP (fun x => x == slash) a with
      | nil => exact absurd hs (List.splitOnP_ne_nil _ _)
      | cons hd tl => simp [List.modifyHead]

/-- No element of a path contains a separator. -/
theorem not_mem_of_mem_splitOn (p : Bytes) : ∀ e ∈ p.splitOn slash, slash ∉ e := by
  induction p with
  | nil => intro e he; simp [List.splitOn, List.splitOnP_nil] at he; subst he; simp
  | cons c p ih =>
    intro e he
    simp only [List.splitOn] at ih he
    rw [List.splitOnP_cons] at he
    by_cases hc : (c == slash) = true
    · simp only [hc, if_true, List.mem_cons] at he
      rcases he with h1 | h1
      · subst h1; simp
      · exact ih e h1
    · simp only [hc, Bool.false_eq_true, if_false] at he
      cases hs : List.splitOnP (fun x => x == slash) p with
      | nil => exact absurd hs (List.splitOnP_ne_nil _ _)
      | cons hd tl =>
        rw [hs] at he ih
        simp only [List.modifyHead, List.mem_cons] at he
        rcases he with h1 | h1
        · subst h1
          have := ih hd (List.mem_cons_self _ _)
          simp only [List.mem_cons, not_or]
          refine ⟨?_, this⟩
          intro e; apply hc; simp [e]
        · exact ih e (List.mem_cons_of_mem _ h1)

/-- The elements of a path cut at a separator. -/
theorem elems_append_cons (a b : Bytes) : elems (a ++ slash :: b) = elems a ++ elems b := by
  unfold elems
  rw [splitOn_append_cons, List.filter_append]

/-- A leading separator adds no element. -/
theorem elems_cons_slash (b : Bytes) : elems (slash :: b) = elems b := by
  have := elems_append_cons [] b
  simp [elems, List.splitOn, List.splitOnP_nil] at this ⊢

/-- A non-empty piece without separator is its own single element. -/
theorem elems_single (e : Bytes) (hne : e ≠ []) (hs : slash ∉ e) : elems e = [e] := by
  unfold elems List.splitOn
  rw [List.splitOnP_eq_single]
  · simp [hne]
  · intro x hx hx'
    have : x = slash := by simpa using hx'
    subst this
    exact hs hx

/-- No element of a path contains a separator, and none is empty. -/
theorem mem_elems (p e : Bytes) (he : e ∈ elems p) : e ≠ [] ∧ slash ∉ e := by
  unfold elems at he
  obtain ⟨h1, h2⟩ := List.mem_filter.mp he
  exact ⟨by simpa using h2, not_mem_of_mem_splitOn p e h1⟩

/-- The rendering of two lists of elements. -/
theorem renderElems_append (as bs : List Bytes) :
    renderElems (as ++ bs) = renderElems as ++ renderElems bs := by
  induction as with
  | nil => rfl
  | cons a as ih => simp [renderElems, ih]

/-- The elements of a rendering are the elements rendered. -/
theorem elems_renderElems (es : List Bytes) (h : ∀ e ∈ es, e ≠ [] ∧ slash ∉ e) :
    elems (renderElems es) = es := by
  induction es with
  | nil => simp [renderElems, elems, List.splitOn, List.splitOnP_nil]
  | cons e es ih =>
    have he := h e (List.mem_cons_self _ _)
    have ih' := ih (fun e' he' => h e' (List.mem_cons_of_mem _ he'))
    simp only [renderElems]
    rw [List.cons_append, elems_cons_slash]
    cases es with
    | nil => simpa [renderElems] using elems_single e he.1 he.2
    | cons e' es' =>
      simp only [renderElems, List.cons_append] at ih' ⊢
      rw [elems_cons_slash] at ih'
      rw [elems_append_cons, elems_single e he.1 he.2, ih']
      rfl

/-- The elements of a rooted path in its rendered form. -/
theorem elems_rootedForm (es : List Bytes) (h : ∀ e ∈ es, e ≠ [] ∧ slash ∉ e) :
    elems (rootedForm es) = es := by
  unfold rootedForm
  by_cases he : es = []
  · subst he; decide
  · simp only [he, if_false]; exact elems_renderElems es h

/-- The joined elements after a separator are the rooted form. -/
theorem slash_cons_intercalate (es : List Bytes) :
    slash :: [slash].intercalate es = rootedForm es := by
  unfold rootedForm
  cases es with
  | nil => rfl
  | cons e es =>
    simp only [List.cons_ne_nil, if_false, reduceCtorEq]
    induction es generalizing e with
    | nil => simp [renderElems, List.intercalate]
    | cons e' es ih =>
      have := ih e'
      simp only [renderElems, List.intercalate, List.intersperse, List.flatten,
        List.cons.injEq, true_and] at this ⊢
      simp [this]

/-- Empty elements do not count in `filepath.Clean`. -/
theorem foldl_cleanStep_filter (rooted : Bool) (l : List Bytes) : ∀ st : List Bytes,
    l.foldl (cleanStep rooted) st
      = (l.filter (fun e => decide (e ≠ []))).foldl (cleanStep rooted) st := by
  induction l with
  | nil => intro st; rfl
  | cons e l ih =>
    intro st
    by_cases he : e = []
    · subst he
      simp only [List.foldl_cons, List.filter_cons]
      rw [ih]
      simp [cleanStep]
    · simp only [List.foldl_cons, List.filter_cons, he, ne_eq, not_false_eq_true,
        decide_True, if_true]
      exact ih _

/-- Real elements are written one after the other. -/
theorem foldl_cleanStep_real (rooted : Bool) (l : List Bytes) (h : ∀ e ∈ l, IsReal e) :
    ∀ st : List Bytes, l.foldl (cleanStep rooted) st = l.reverse ++ st := by
  induction l with
  | nil => intro st; rfl
  | cons e l ih =>
    intro st
    obtain ⟨h1, h2, h3, _⟩ := h e (List.mem_cons_self _ _)
    have hstep : cleanStep rooted st e = e :: st := by
      simp [cleanStep, h1, h2, h3]
    rw [List.foldl_cons, hstep, ih (fun e' he' => h e' (List.mem_cons_of_mem _ he'))]
    simp

/-- In a rooted path only real elements are written. -/
theorem foldl_cleanStep_isReal (l : List Bytes) (hl : ∀ e ∈ l, e ≠ [] ∧ slash ∉ e) :
    ∀ st : List Bytes, (∀ e ∈ st, IsReal e) →
      ∀ e ∈ l.foldl (cleanStep true) st, IsReal e := by
  induction l with
  | nil => intro st hst; simpa using hst
  | cons a l ih =>
    intro st hst
    rw [List.foldl_cons]
    apply ih (fun e' he' => hl e' (List.mem_cons_of_mem _ he'))
    have ha := hl a (List.mem_cons_self _ _)
    unfold cleanStep
    by_cases h1 : a = [] ∨ a = [0x2E]
    · simp only [h1, if_true]; exact hst
    · simp only [h1, if_false]
      by_cases h2 : a = dotdot
      · simp only [h2, if_true]
        cases st with
        | nil => simp
        | cons top below =>
          by_cases h3 : top = dotdot
          · simp only [h3, if_true]
            rw [h3] at hst
            exact hst
          · simp only [h3, if_false]
            exact fun e he => hst e (List.mem_cons_of_mem _ he)
      · simp only [h2, if_false]
        intro e he
        rcases List.mem_cons.mp he with h4 | h4
        · subst h4
          exact ⟨ha.1, fun h => h1 (Or.inr h), h2, ha.2⟩
        · exact hst e h4

/-- The function `filepath.Clean` on a rooted path: the rooted form of the elements it
writes. -/
theorem clean_rooted (p : Bytes) (hp : p.head? = some slash) :
    clean p = rootedForm ((elems p).foldl (cleanStep true) []).reverse := by
  have hne : p ≠ [] := by intro h; subst h; simp at hp
  unfold clean
  simp only [hne, if_false, hp, decide_True, if_true]
  rw [slash_cons_intercalate, foldl_cleanStep_filter]
  rfl

/-- A rooted form starts with a separator. -/
theorem rootedForm_head (es : List Bytes) : (rootedForm es).head? = some slash := by
  unfold rootedForm
  cases es with
  | nil => rfl
  | cons e es => rfl

/-- A rooted form is not empty. -/
theorem rootedForm_ne_nil (es : List Bytes) : rootedForm es ≠ [] := by
  intro h
  have := rootedForm_head es
  rw [h] at this
  cases this

/-- The function `filepath.Clean` turns a rooted path into the rooted form of real
elements. -/
theorem clean_rooted_form (p : Bytes) (hp : p.head? = some slash) :
    ∃ qs : List Bytes, (∀ e ∈ qs, IsReal e) ∧ clean p = rootedForm qs := by
  refine ⟨((elems p).foldl (cleanStep true) []).reverse, ?_, clean_rooted p hp⟩
  intro e he
  exact foldl_cleanStep_isReal (elems p) (fun e' he' => mem_elems p e' he') []
    (by intro e' he'; simp at he') e (List.mem_reverse.mp he)

/-- A clean absolute root is the rooted form of real elements. -/
theorem cleanAbs_form (root : Bytes) (h : CleanAbs root) :
    ∃ rs : List Bytes, (∀ e ∈ rs, IsReal e) ∧ root = rootedForm rs := by
  obtain ⟨rs, hrs, hc⟩ := clean_rooted_form root h.1
  exact ⟨rs, hrs, h.2.symm.trans hc⟩

/-- The function `filepath.Join` on two rooted forms of real elements: the rooted form of
the elements of the first followed by those of the second. -/
theorem join_rootedForm (rs qs : List Bytes) (hrs : ∀ e ∈ rs, IsReal e)
    (hqs : ∀ e ∈ qs, IsReal e) :
    join (rootedForm rs) (rootedForm qs) = rootedForm (rs ++ qs) := by
  unfold join
  simp only [ne_eq, rootedForm_ne_nil, not_false_eq_true, if_true]
  have hhead : (rootedForm rs ++ slash :: rootedForm qs).head? = some slash := by
    have := rootedForm_head rs
    cases hr : rootedForm rs with
    | nil => exact absurd hr (rootedForm_ne_nil rs)
    | cons c t => rw [hr] at this; simpa using this
  rw [clean_rooted _ hhead, elems_append_cons,
    elems_rootedForm rs (fun e he => ⟨(hrs e he).1, (hrs e he).2.2.2⟩),
    elems_rootedForm qs (fun e he => ⟨(hqs e he).1, (hqs e he).2.2.2⟩)]
  have hall : ∀ e ∈ rs ++ qs, IsReal e := by
    intro e he
    rcases List.mem_append.mp he with h1 | h1
    · exact hrs e h1
    · exact hqs e h1
  rw [foldl_cleanStep_real true (rs ++ qs) hall []]
  simp

/-- The rooted form of elements followed by more begins with the rooted form of the
elements: it is the same, or goes on with a separator. -/
theorem rootedForm_append (rs qs : List Bytes) :
    rootedForm rs <+: rootedForm (rs ++ qs)
      ∧ (rootedForm (rs ++ qs) = rootedForm rs
          ∨ (rootedForm rs ++ [slash]) <+: rootedForm (rs ++ qs)
          ∨ (rootedForm rs = [slash] ∧ [slash] <+: rootedForm (rs ++ qs))) := by
  cases rs with
  | nil =>
    have hp : [slash] <+: rootedForm qs := by
      have := rootedForm_head qs
      cases hq : rootedForm qs with
      | nil => exact absurd hq (rootedForm_ne_nil qs)
      | cons c t =>
        rw [hq] at this
        simp only [List.head?_cons, Option.some.injEq] at this
        subst this
        exact ⟨t, rfl⟩
    exact ⟨by simpa [rootedForm] using hp, Or.inr (Or.inr ⟨rfl, by simpa using hp⟩)⟩
  | cons r rs =>
    have hform : rootedForm ((r :: rs) ++ qs) = rootedForm (r :: rs) ++ renderElems qs := by
      simp only [rootedForm, List.cons_append, List.cons_ne_nil, if_false, reduceCtorEq]
      rw [← List.cons_append, renderElems_append]
    refine ⟨⟨renderElems qs, hform.symm⟩, ?_⟩
    cases qs with
    | nil => left; simp
    | cons q qs =>
      right; left
      rw [hform]
      exact ⟨q ++ renderElems qs, by simp [renderElems]⟩

/-- The rooted form of real elements followed by more real elements lies in the tree of the
rooted form of the first. -/
theorem inTree_rootedForm (rs qs : List Bytes) (hrs : ∀ e ∈ rs, IsReal e)
    (hqs : ∀ e ∈ qs, IsReal e) :
    rootedForm rs <+: rootedForm (rs ++ qs) ∧ InTree (rootedForm rs) (rootedForm (rs ++ qs)) := by
  have hall : ∀ e ∈ rs ++ qs, IsReal e := by
    intro e he
    rcases List.mem_append.mp he with h1 | h1
    · exact hrs e h1
    · exact hqs e h1
  refine ⟨(rootedForm_append rs qs).1, (rootedForm_append rs qs).2, ?_⟩
  rw [elems_rootedForm (rs ++ qs) (fun e he => ⟨(hall e he).1, (hall e he).2.2.2⟩)]
  exact hall

/-- For a clean absolute root and a rooted request path the joined path has the root as a
prefix and lies in its tree, and its elements are those of the root followed by those of the
normalised request path. -/
theorem join_clean_inTree (root p : Bytes) (hroot : CleanAbs root)
    (hp : p.head? = some slash) :
    root <+: join root (clean p) ∧ InTree root (join root (clean p))
      ∧ elems (join root (clean p)) = elems root ++ elems (clean p) := by
  obtain ⟨rs, hrs, hr⟩ := cleanAbs_form root hroot
  obtain ⟨qs, hqs, hq⟩ := clean_rooted_form p hp
  have hall : ∀ e ∈ rs ++ qs, IsReal e := by
    intro e he
    rcases List.mem_append.mp he with h1 | h1
    · exact hrs e h1
    · exact hqs e h1
  rw [hq, hr, join_rootedForm rs qs hrs hqs]
  refine ⟨(inTree_rootedForm rs qs hrs hqs).1, (inTree_rootedForm rs qs hrs hqs).2, ?_⟩
  rw [elems_rootedForm (rs ++ qs) (fun e he => ⟨(hall e he).1, (hall e he).2.2.2⟩),
    elems_rootedForm rs (fun e he => ⟨(hrs e he).1, (hrs e he).2.2.2⟩),
    elems_rootedForm qs (fun e he => ⟨(hqs e he).1, (hqs e he).2.2.2⟩)]

/-- What lies in the tree of the root has the root as a prefix. -/
theorem prefix_of_inTree (root p : Bytes) (h : InTree root p) : root <+: p := by
  rcases h.1 with h | h | ⟨h1, h2⟩
  · rw [h]
  · exact (List.prefix_append root [slash]).trans h
  · rw [h1]; exact h2

/-- The resolution refuses exactly when the root is not a prefix of the joined path. -/
theorem resolvePath_eq_none_iff (W : World) (root p : Bytes) :
    resolvePath W root p = none ↔ ¬ root <+: join root (clean (defaultPath W root p)) := by
  unfold resolvePath hasPrefix
  by_cases hpre : root <+: join root (clean (defaultPath W root p))
  · simp [List.isPrefixOf_iff_prefix.mpr hpre, hpre]
  · have : root.isPrefixOf (join root (clean (defaultPath W root p))) = false := by
      cases hb : root.isPrefixOf (join root (clean (defaultPath W root p))) with
      | false => rfl
      | true => exact absurd (List.isPrefixOf_iff_prefix.mp hb) hpre
    simp [this, hpre]

/-- The resolution returns the joined path when the root is a prefix of it. -/
theorem resolvePath_accepts (W : World) (root p : Bytes)
    (hpre : root <+: join root (clean (defaultPath W root p))) :
    resolvePath W root p = some (join root (clean (defaultPath W root p))) := by
  unfold resolvePath hasPrefix
  simp [List.isPrefixOf_iff_prefix.mpr hpre]

/-- The path `serveFileOrPHP` normalises is rooted when the request path is empty or
rooted. -/
theorem defaultPath_head (W : World) (root p : Bytes) (hp : p = [] ∨ p.head? = some slash) :
    (defaultPath W root p).head? = some slash := by
  unfold defaultPath
  by_cases hd : p = [] ∨ p = [slash]
  · simp only [hd, if_true]
    cases W.stat (join root (ascii "index.php")) <;> rfl
  · simp only [hd, if_false]
    rcases hp with h1 | h1
    · exact absurd (Or.inl h1) hd
    · exact h1

/-- For a clean absolute root and a request path that is empty or rooted, the resolution
succeeds with a path inside the tree of the root. -/
theorem resolvePath_of_rooted (W : World) (root p : Bytes) (hroot : CleanAbs root)
    (hp : p = [] ∨ p.head? = some slash) :
    resolvePath W root p = some (join root (clean (defaultPath W root p)))
      ∧ InTree root (join root (clean (defaultPath W root p))) := by
  obtain ⟨h1, h2, _⟩ := join_clean_inTree root _ hroot (defaultPath_head W root p hp)
  exact ⟨resolvePath_accepts W root p h1, h2⟩

/-- A path that ends in `/etc/passwd` has no extension. -/
theorem fileExt_passwd (x : Bytes) : fileExt (x ++ ascii "/etc/passwd") = [] := by
  have hrev : (ascii "/etc/passwd").reverse
      = [0x64, 0x77, 0x73, 0x73, 0x61, 0x70, 0x2F, 0x63, 0x74, 0x65, 0x2F] := by rfl
  unfold fileExt
  rw [List.reverse_append, hrev]
  simp [extRev, slash]

/-- C4, the claim as stated, fails: with the root `/srv/www` and no file at all, the guard
lets the request for `/../../etc/passwd` pass, as `/srv/www/etc/passwd`; the answer is the 400
of `http.ServeFile`, not 403. -/
theorem serveFileOrPHP_passwd_not_403 :
    resolvePath emptyWorld exampleRoot passwdPath = some (ascii "/srv/www/etc/passwd")
      ∧ statusOf (serveFileOrPHP asciiOnly emptyWorld exampleRoot ⟨passwdPath⟩) = some 400
      ∧ statusOf (serveFileOrPHP asciiOnly emptyWorld exampleRoot ⟨passwdPath⟩) ≠ some 403 := by
  decide

/-- C4, amended: for every clean absolute root and every state of the file system, the
request path `/../../etc/passwd` is normalised to `/etc/passwd` and joined to a path inside
the tree of the root, so the guard does not refuse it; the request goes to the plain static
route, where `http.ServeFile` refuses it because of the `..` elements of the URL path: the
answer is 400, not 403, whether or not the file exists. -/
theorem serveFileOrPHP_passwd (U : Unicode) (W : World) (root : Bytes) (hroot : CleanAbs root) :
    clean passwdPath = ascii "/etc/passwd"
      ∧ resolvePath W root passwdPath = some (join root (ascii "/etc/passwd"))
      ∧ InTree root (join root (ascii "/etc/passwd"))
      ∧ serveFileOrPHP U W root ⟨passwdPath⟩ = httpServeFile ⟨passwdPath⟩
          (join root (ascii "/etc/passwd"))
      ∧ statusOf (serveFileOrPHP U W root ⟨passwdPath⟩) = some 400 := by
  have hclean : clean passwdPath = ascii "/etc/passwd" := by rfl
  have hdef : defaultPath W root passwdPath = passwdPath := by
    unfold defaultPath
    have : ¬ (passwdPath = [] ∨ passwdPath = [slash]) := by decide
    simp only [this, if_false]
  obtain ⟨hres, hin⟩ := resolvePath_of_rooted W root passwdPath hroot (Or.inr (by rfl))
  rw [hdef, hclean] at hres hin
  have hext : fileExt (join root (ascii "/etc/passwd")) = [] := by
    obtain ⟨rs, hrs, hr⟩ := cleanAbs_form root hroot
    have hq : ascii "/etc/passwd" = rootedForm [ascii "etc", ascii "passwd"] := by rfl
    have hqs : ∀ e ∈ [ascii "etc", ascii "passwd"], IsReal e := by
      intro e he
      rcases List.mem_cons.mp he with h1 | h1
      · subst h1; exact ⟨by decide, by decide, by decide, by decide⟩
      · rcases List.mem_cons.mp h1 with h2 | h2
        · subst h2; exact ⟨by decide, by decide, by decide, by decide⟩
        · simp at h2
    have hj : join root (ascii "/etc/passwd")
        = renderElems rs ++ ascii "/etc/passwd" := by
      rw [hr, hq, join_rootedForm rs _ hrs hqs]
      have hne : rs ++ [ascii "etc", ascii "passwd"] ≠ [] := by simp
      simp only [rootedForm, hne, if_false]
      rw [renderElems_append]
      rfl
    rw [hj]
    exact fileExt_passwd _
  have hcalls : serveFileOrPHP U W root ⟨passwdPath⟩
      = httpServeFile ⟨passwdPath⟩ (join root (ascii "/etc/passwd")) := by
    unfold serveFileOrPHP
    simp only [hres, hext]
    have hlow : toLower U [] = [] := by rfl
    rw [hlow]
    have h1 : ¬ (([] : Bytes) = ascii ".php") := by decide
    simp only [h1, if_false]
    unfold serveStaticWithInject
    simp only [hext, hlow]
    have h2 : (([] : Bytes) ≠ ascii ".html" ∧ ([] : Bytes) ≠ ascii ".htm") := by decide
    rw [if_pos h2]
  refine ⟨hclean, hres, hin, hcalls, ?_⟩
  rw [hcalls]
  rfl

/-- The theorem `serveFileOrPHP_passwd` at the root `/srv/www`. -/
theorem serveFileOrPHP_passwd_witness :
    CleanAbs exampleRoot
      ∧ statusOf (serveFileOrPHP asciiOnly emptyWorld exampleRoot ⟨passwdPath⟩) = some 400 :=
  ⟨⟨by decide, by decide⟩,
   (serveFileOrPHP_passwd asciiOnly emptyWorld exampleRoot ⟨by decide, by decide⟩).2.2.2.2⟩

end LivePHP
